import Mathlib

/-!
Verification of the parallel Fast Walsh-Hadamard Transform engine of this
repository (package `fwht`): the stage/butterfly scheduler of
`internal/fwht/fwht_parallel.go` and `internal/fwht/fwht_parallel_with_timer.go`,
the serial reference `MatVecHadamardSerialInPlace`, and the batched
Jacobian-to-affine conversion `BatchJacToAffG1Par` of `internal/fwht/util.go`.

Modelling conventions:
* Go slices that are mutated in place become functions `Nat → _` updated with
  `Function.update`; a whole-slice result is read out as `(List.range n).map buf`.
* The element type of the working buffer is an abstract type `J`; the external
  group-arithmetic provider (gnark-crypto `G1Jac.AddAssign` / `G1Jac.Neg`) is
  passed in as explicit function parameters `add neg`, following the spec's
  collaborating-interface contract.
* Goroutines of one stage write disjoint index pairs (proved below), so the
  concurrent execution is modelled by executing the spawned tasks sequentially
  in spawn/queue order.
* `workers <= 0` is coerced by the source to `runtime.GOMAXPROCS(0)` and then
  clamped to at least 1; the model coerces with `max 1 workers` and the
  theorems quantify over every positive worker count, which subsumes any
  value `GOMAXPROCS` may take.
-/

section CoreDefs

variable {J : Type}

/-- One butterfly on buffer positions `a` (low) and `c` (high): the source
snapshots `ta := *a; tc := *c`, then writes `*a = ta ⊕ tc` and
`*c = ta ⊕ (⊖tc)` (copy-then-write). -/
def butterfly (add : J → J → J) (neg : J → J) (a c : Nat) (v : Nat → J) : Nat → J :=
  Function.update (Function.update v a (add (v a) (v c))) c (add (v a) (neg (v c)))

/-- Execute a list of butterfly pairs in order; every stage body of the source
is an iteration of butterflies over such a pair enumeration. -/
def applyPairs (add : J → J → J) (neg : J → J) (ps : List (Nat × Nat)) (v : Nat → J) :
    Nat → J :=
  ps.foldl (fun v p => butterfly add neg p.1 p.2 v) v

/-- Pair enumeration of the `for b / for j` double loop of the source:
`base := b*block`, a-index `base+j`, c-index `base+j+step`, `block = step<<1`. -/
def blockPairs (step : Nat) (bs js : List Nat) : List (Nat × Nat) :=
  bs.flatMap fun b => js.map fun j => (b * (2 * step) + j, b * (2 * step) + j + step)

/-- Canonical (serial-branch) pair order of one stage: all blocks `b < nb`
with `nb = n/block`, offsets `j < step` (fwht_parallel.go lines 50-68). -/
def stagePairs (n step : Nat) : List (Nat × Nat) :=
  blockPairs step (List.range (n / (2 * step))) (List.range step)

/-- Block range handed to worker `w`: `b0 := w*chunk`, `b1 := min (b0+chunk) nb`
(fwht_parallel.go lines 76-84; the `break` at `b0 >= nb` is equivalent to the
later, empty ranges contributing nothing). -/
def chunkRange (chunk nb w : Nat) : List Nat :=
  List.range' (w * chunk) (min (w * chunk + chunk) nb - w * chunk)

/-- Blocks in goroutine spawn order for the block-chunked parallel branch,
`chunk := (nb + eff - 1) / eff`. -/
def chunkedBlocks (nb eff : Nat) : List Nat :=
  (List.range eff).flatMap fun w => chunkRange ((nb + eff - 1) / eff) nb w

/-- Stage pair enumeration of `MatVecHadamardPar`/`MatVecHadamardParBatch`:
`eff := min workers nb`; serial double loop when `eff <= 1 || nb <= 1`, else
blocks are chunked across `eff` goroutines (fwht_parallel.go lines 40-111). -/
def stageChunkedPairs (n workers step : Nat) : List (Nat × Nat) :=
  let nb := n / (2 * step)
  let eff := min workers nb
  if eff ≤ 1 ∨ nb ≤ 1 then stagePairs n step
  else blockPairs step (chunkedBlocks nb eff) (List.range step)

/-- One stage of the block-chunked parallel engine. -/
def stageChunked (add : J → J → J) (neg : J → J) (n workers step : Nat) (v : Nat → J) :
    Nat → J :=
  applyPairs add neg (stageChunkedPairs n workers step) v

/-- Pair enumeration of one stage of `MatVecHadamardSerialInPlace`
(src/unnamed/part_000): `half := n >> 1` butterflies indexed by `k`, with
`aIdx = ((k >> r) << (r+1)) | (k & ((1<<r)-1))` and `cIdx = aIdx + (1<<r)`. -/
def serialStagePairs (n r : Nat) : List (Nat × Nat) :=
  (List.range (n >>> 1)).map fun k =>
    let aIdx := ((k >>> r) <<< (r + 1)) ||| (k &&& ((1 <<< r) - 1))
    (aIdx, aIdx + (1 <<< r))

/-- Start points `j0 = 0, stride, 2*stride, ...` of a Go loop
`for j0 := 0; j0 < n; j0 += stride` (strides in the source are positive;
a non-positive stride yields the empty list so the recursion terminates). -/
def strideStarts (j0 stride n : Nat) : List Nat :=
  if _h : 0 < stride ∧ j0 < n then j0 :: strideStarts (j0 + stride) stride n else []
termination_by n - j0
decreasing_by omega

/-- A task of the 2D tiling scheduler: blocks `[b0, b1)` times offsets `[j0, j1)`. -/
structure TaskT where
  b0 : Nat
  b1 : Nat
  j0 : Nat
  j1 : Nat
deriving DecidableEq

/-- Task list built by one stage of the profiling variants
(fwht_parallel_with_timer.go lines 71-108): `targetTasks := workers*3`; if
`nb >= targetTasks` chunk only the block axis, else tile the offset axis into
`jTiles` column tiles (clamped to `[1, step]`), each spanning all blocks. -/
def stageTasks (n workers step : Nat) : List TaskT :=
  let nb := n / (2 * step)
  let targetTasks := workers * 3
  if nb ≥ targetTasks then
    let chunkB := (nb + targetTasks - 1) / targetTasks
    (strideStarts 0 chunkB nb).map fun b0 => ⟨b0, min (b0 + chunkB) nb, 0, step⟩
  else
    let jT0 := targetTasks / max 1 nb
    let jT1 := if jT0 < 1 then 1 else jT0
    let jTiles := if jT1 > step then step else jT1
    let tile := (step + jTiles - 1) / jTiles
    (strideStarts 0 tile step).map fun j0 => ⟨0, nb, j0, min (j0 + tile) step⟩

/-- Pairs of one 2D-tiled stage, in task order (the source drains the task
queue with `min(workers, len(tasks))` consumers, or runs a single task inline;
either way each task's `(b, j)` double loop is executed once). -/
def stageTiledPairs (n workers step : Nat) : List (Nat × Nat) :=
  (stageTasks n workers step).flatMap fun t =>
    blockPairs step (List.range' t.b0 (t.b1 - t.b0)) (List.range' t.j0 (t.j1 - t.j0))

/-- One stage of the 2D-tiled engine of the profiling variants. -/
def stageTiled (add : J → J → J) (neg : J → J) (n workers step : Nat) (v : Nat → J) :
    Nat → J :=
  applyPairs add neg (stageTiledPairs n workers step) v

/-- The stage driver loop `for step := 1; step < n; step <<= 1 { f step }`. -/
def goStepLoop (f : Nat → (Nat → J) → Nat → J) (n step : Nat) (v : Nat → J) : Nat → J :=
  if _h : 0 < step ∧ step < n then goStepLoop f n (2 * step) (f step v) else v
termination_by n - step
decreasing_by omega

/-- All stages of `MatVecHadamardPar`/`MatVecHadamardParBatch`. -/
def runStagesPar (add : J → J → J) (neg : J → J) (n workers : Nat) (v : Nat → J) :
    Nat → J :=
  goStepLoop (fun step v => stageChunked add neg n workers step v) n 1 v

/-- All stages of the profiling variants (2D tiling). -/
def runStagesTiled (add : J → J → J) (neg : J → J) (n workers : Nat) (v : Nat → J) :
    Nat → J :=
  goStepLoop (fun step v => stageTiled add neg n workers step v) n 1 v

/-- All stages of `MatVecHadamardSerialInPlace`: `stages := bits.Len(n) - 1`
(`= Nat.size n - 1`), stage `r` runs the `k` loop of `serialStagePairs`. -/
def runStagesSerial (add : J → J → J) (neg : J → J) (n : Nat) (v : Nat → J) : Nat → J :=
  (List.range (Nat.size n - 1)).foldl (fun v r => applyPairs add neg (serialStagePairs n r) v) v

/-- Number of stages as counted by the profiling variants:
`for t := 1; t < n; t <<= 1 { Stages++ }`. -/
def stagesCount (n t : Nat) : Nat :=
  if _h : 0 < t ∧ t < n then stagesCount n (2 * t) + 1 else 0
termination_by n - t
decreasing_by omega

end CoreDefs

section FieldDefs

/-- Affine point of the provider: two field coordinates, as in gnark-crypto
`bn254.G1Affine`.  The base field is kept generic: the source's `fp.Element`
is a prime field, and no claim depends on the particular prime. -/
structure G1Affine (F : Type) where
  X : F
  Y : F
deriving DecidableEq

/-- Jacobian (projective) point of the provider: an extra scaling coordinate
`Z`; the identity has `Z = 0` (spec section 3). -/
structure G1Jac (F : Type) where
  X : F
  Y : F
  Z : F
deriving DecidableEq

instance {F : Type} [Zero F] : Inhabited (G1Affine F) := ⟨⟨0, 0⟩⟩

instance {F : Type} [Zero F] : Inhabited (G1Jac F) := ⟨⟨0, 0, 0⟩⟩

variable {F : Type} [Field F] [DecidableEq F]

/-- The affine value written by `setInfinity` (util.go lines 68-73):
`a.X.SetZero(); a.Y.SetOne()` — the fixed sentinel pair for the identity. -/
def setInfinity : G1Affine F := ⟨0, 1⟩

/-- Modelled from the spec: gnark-crypto `G1Jac.FromAffine` is not part of the
repository.  Spec sections 3/4.1: `ToProjective` is exact and maps the
identity (the fixed sentinel pair) to the projective identity, which has a
zero scaling coordinate; a non-identity point embeds with `Z = 1`. -/
def fromAffine (p : G1Affine F) : G1Jac F :=
  if p = setInfinity then ⟨1, 1, 0⟩ else ⟨p.X, p.Y, 1⟩

/-- Modelled from the spec: gnark-crypto `G1Affine.FromJacobian` is not part
of the repository.  Spec section 4.1: `ToAffineSingle` performs one field
inversion per element, and the identity (zero scaling coordinate) maps to the
fixed sentinel affine pair; otherwise `(X·(1/Z)², Y·(1/Z)³)`. -/
def fromJacobian (p : G1Jac F) : G1Affine F :=
  if p.Z = 0 then setInfinity
  else
    let zi := p.Z⁻¹
    ⟨p.X * (zi * zi), p.Y * (zi * zi * zi)⟩

/-- Chunks `(i0, i1)` of `parallelRange` (util.go lines 42-66): one inline
chunk for `workers <= 1 || n < 1024`, else up to `workers` chunks of size
`chunk := (n + workers - 1) / workers` (the `break` at `i0 >= n` is equivalent
to the later, empty chunks contributing nothing). -/
def parallelRangeChunks (n workers : Nat) : List (Nat × Nat) :=
  if workers ≤ 1 ∨ n < 1024 then [(0, n)]
  else
    let chunk := (n + workers - 1) / workers
    (List.range workers).map fun w => (w * chunk, min (w * chunk + chunk) n)

/-- The indices `[0, n)` in `parallelRange` chunk order. -/
def chunkIdxs (n workers : Nat) : List Nat :=
  (parallelRangeChunks n workers).flatMap fun c => List.range' c.1 (c.2 - c.1)

/-- The `(idx, z)` list of entries with nonzero scaling coordinate collected
by `BatchJacToAffG1Par` (util.go lines 91-103). -/
def nonZeroPairs (v : List (G1Jac F)) : List (Nat × F) :=
  (List.range v.length).filterMap fun i =>
    if (v.getD i default).Z = 0 then none else some (i, (v.getD i default).Z)

/-- Initial `out` slice of `BatchJacToAffG1Par`: `make` zeroes it, then the
collect loop sets `out[i]` to the infinity sentinel wherever `Z = 0`. -/
def batchOutInit (v : List (G1Jac F)) : Nat → G1Affine F :=
  (List.range v.length).foldl
    (fun out i =>
      if (v.getD i default).Z = 0 then Function.update out i setInfinity else out)
    fun _ => ⟨0, 0⟩

/-- Tail of the prefix-product loop: `acc[j] = acc[j-1] * z[j]`
(util.go lines 110-114). -/
def accProdsGo (a : F) : List F → List F
  | [] => []
  | z :: zs => (a * z) :: accProdsGo (a * z) zs

/-- Prefix products of the nonzero scaling coordinates: `acc[0] = z[0]`,
`acc[j] = acc[j-1] * z[j]`. -/
def accProds : List F → List F
  | [] => []
  | z :: zs => z :: accProdsGo z zs

/-- The backward sweep of `BatchJacToAffG1Par` (util.go lines 120-130), run
over the descending index list `js`: state is `(invAll, invZ-so-far)`; at `j`
it emits `invZ[j] = invAll * acc[j-1]` (or `invAll` at `j = 0`) and then
propagates `invAll *= z[j]`.  Emitted entries are prepended, so the final
list is in ascending index order. -/
def backSweep (zs accs : List F) (st : F × List F) (js : List Nat) : F × List F :=
  js.foldl
    (fun st j =>
      (st.1 * zs.getD j 0,
        (if j = 0 then st.1 else st.1 * accs.getD (j - 1) 0) :: st.2))
    st

/-- The `invZ` array: one inversion of the total product `acc[k-1]`, then the
backward sweep for `j = k-1 .. 0`. -/
def invZList (zs : List F) : List F :=
  let accs := accProds zs
  let invAll := (accs.getD (zs.length - 1) 0)⁻¹
  (backSweep zs accs (invAll, []) (List.range zs.length).reverse).2

/-- Finalize loop of `BatchJacToAffG1Par` (util.go lines 132-149) over the
positions `js` into the nonzero list: `i := nonZero[j].idx`,
`inv2 := invZ[j]²`, `inv3 := inv2 * invZ[j]`,
`out[i] := (in[i].X * inv2, in[i].Y * inv3)`. -/
def batchFinalize (v : List (G1Jac F)) (nz : List (Nat × F)) (invZ : List F)
    (out : Nat → G1Affine F) (js : List Nat) : Nat → G1Affine F :=
  js.foldl
    (fun out j =>
      Function.update out (nz.getD j (0, 0)).1
        ⟨(v.getD (nz.getD j (0, 0)).1 default).X * (invZ.getD j 0 * invZ.getD j 0),
          (v.getD (nz.getD j (0, 0)).1 default).Y *
            (invZ.getD j 0 * invZ.getD j 0 * invZ.getD j 0)⟩)
    out

/-- `BatchJacToAffG1Par` (util.go lines 78-152): batch Jacobian→affine using a
single field inversion; points with `Z = 0` become the infinity sentinel. -/
def BatchJacToAffG1Par (v : List (G1Jac F)) (workers : Nat) : List (G1Affine F) :=
  let n := v.length
  if n = 0 then []
  else
    let w := max 1 workers
    let nz := nonZeroPairs v
    let out0 := batchOutInit v
    let k := nz.length
    if k = 0 then (List.range n).map out0
    else
      let zs := nz.map Prod.snd
      let invZ := invZList zs
      (List.range n).map (batchFinalize v nz invZ out0 (chunkIdxs k w))

/-- The single inversion performed by `BatchJacToAffG1Par`, as the list of
arguments handed to `fp.Element.Inverse`: none when every point has `Z = 0`
(early return at `k == 0`), otherwise exactly the one total product
`acc[k-1]` (util.go lines 104-118). -/
def batchInversionArgs (v : List (G1Jac F)) : List F :=
  let zs := (nonZeroPairs v).map Prod.snd
  if zs.length = 0 then [] else [(accProds zs).getD (zs.length - 1) 0]

end FieldDefs

section VariantDefs

variable {F : Type} [Field F] [DecidableEq F]

/-- The Affine→Jacobian conversion phase shared by the parallel variants:
`parallelRange(n, workers, ...)` writing `outJac[i].FromAffine(&in[i])` into a
freshly `make`d (zeroed) buffer. -/
def toJacBuf (xs : List (G1Affine F)) (workers : Nat) : Nat → G1Jac F :=
  (chunkIdxs xs.length workers).foldl
    (fun jac i => Function.update jac i (fromAffine (xs.getD i default)))
    fun _ => ⟨0, 0, 0⟩

/-- The per-point Jacobian→Affine output phase of `MatVecHadamardPar` /
`MatVecHadamardParProfile`: `parallelRange(n, workers, ...)` writing
`outAff[i].FromJacobian(&outJac[i])` into a fresh zeroed buffer. -/
def perPointToAff (jac : Nat → G1Jac F) (n workers : Nat) : Nat → G1Affine F :=
  (chunkIdxs n workers).foldl
    (fun out i => Function.update out i (fromJacobian (jac i)))
    fun _ => ⟨0, 0⟩

/-- `MatVecHadamardPar` (fwht_parallel.go lines 16-122), with the provider's
projective add/negate as parameters: validate the size, convert to Jacobian,
run the block-chunked stages, convert back per point. -/
def MatVecHadamardPar (add : G1Jac F → G1Jac F → G1Jac F) (neg : G1Jac F → G1Jac F)
    (xs : List (G1Affine F)) (workers : Nat) : Except String (List (G1Affine F)) :=
  let n := xs.length
  if n = 0 then .ok []
  else if n &&& (n - 1) ≠ 0 then .error "MatVecHadamardPar: length must be a power of two"
  else
    let w := max 1 workers
    let jac := runStagesPar add neg n w (toJacBuf xs w)
    .ok ((List.range n).map (perPointToAff jac n w))

/-- `MatVecHadamardParBatch` (fwht_parallel.go lines 128-226): identical
stages, batch Jacobian→Affine output conversion. -/
def MatVecHadamardParBatch (add : G1Jac F → G1Jac F → G1Jac F) (neg : G1Jac F → G1Jac F)
    (xs : List (G1Affine F)) (workers : Nat) : Except String (List (G1Affine F)) :=
  let n := xs.length
  if n = 0 then .ok []
  else if n &&& (n - 1) ≠ 0 then
    .error "MatVecHadamardParBatch: length must be a power of two"
  else
    let w := max 1 workers
    let jac := runStagesPar add neg n w (toJacBuf xs w)
    .ok (BatchJacToAffG1Par ((List.range n).map jac) w)

/-- The numeric fields of `FWHTProfile` (fwht_parallel_with_timer.go lines
13-22); the `time.Duration` fields are wall-clock measurements with no
numeric content and are not modelled. -/
structure FWHTProfile where
  N : Nat
  Workers : Nat
  Stages : Nat
deriving DecidableEq

/-- `MatVecHadamardParBatchProfile` (fwht_parallel_with_timer.go lines
27-187): 2D-tiled stages, batch output conversion, returns the profile
alongside the result. -/
def MatVecHadamardParBatchProfile (add : G1Jac F → G1Jac F → G1Jac F)
    (neg : G1Jac F → G1Jac F) (xs : List (G1Affine F)) (workers : Nat) :
    Except String (List (G1Affine F) × FWHTProfile) :=
  let n := xs.length
  if n = 0 then .ok ([], ⟨n, 0, 0⟩)
  else if n &&& (n - 1) ≠ 0 then
    .error "MatVecHadamardParBatchProfile: length must be a power of two"
  else
    let w := max 1 workers
    let jac := runStagesTiled add neg n w (toJacBuf xs w)
    .ok (BatchJacToAffG1Par ((List.range n).map jac) w, ⟨n, w, stagesCount n 1⟩)

/-- `MatVecHadamardParProfile` (fwht_parallel_with_timer.go lines 192-350):
2D-tiled stages, per-point output conversion, returns the profile. -/
def MatVecHadamardParProfile (add : G1Jac F → G1Jac F → G1Jac F)
    (neg : G1Jac F → G1Jac F) (xs : List (G1Affine F)) (workers : Nat) :
    Except String (List (G1Affine F) × FWHTProfile) :=
  let n := xs.length
  if n = 0 then .ok ([], ⟨n, 0, 0⟩)
  else if n &&& (n - 1) ≠ 0 then
    .error "MatVecHadamardParProfile: length must be a power of two"
  else
    let w := max 1 workers
    let jac := runStagesTiled add neg n w (toJacBuf xs w)
    .ok ((List.range n).map (perPointToAff jac n w), ⟨n, w, stagesCount n 1⟩)

/-- `MatVecHadamardSerialInPlace` (src/unnamed/part_000 lines 161-215): the
single-threaded reference; works in place on `in`, so the model returns the
final contents of `in` (unchanged for length 0). -/
def MatVecHadamardSerialInPlace (add : G1Jac F → G1Jac F → G1Jac F)
    (neg : G1Jac F → G1Jac F) (xs : List (G1Affine F)) :
    Except String (List (G1Affine F)) :=
  let n := xs.length
  if n = 0 then .ok xs
  else if n &&& (n - 1) ≠ 0 then
    .error "MatVecHadamardSerialInPlace: length must be a power of two"
  else
    let buf := runStagesSerial add neg n (fun i => fromAffine (xs.getD i default))
    .ok ((List.range n).map fun i => fromJacobian (buf i))

end VariantDefs

section GroupDefs

variable {G : Type} [AddCommGroup G]

/-- `MatVecHadamardPar` at the level of abstract group elements: the spec
(section 4.1) makes the affine↔projective conversions exact representation
changes of the same group element, so on group elements they are the
identity; the stage arithmetic is the provider's group add/negate.  This is
the engine against which the algebraic transform properties are stated. -/
def MatVecHadamardParGroup (xs : List G) (workers : Nat) : Except String (List G) :=
  let n := xs.length
  if n = 0 then .ok []
  else if n &&& (n - 1) ≠ 0 then .error "MatVecHadamardPar: length must be a power of two"
  else
    let w := max 1 workers
    .ok ((List.range n).map (runStagesPar (· + ·) (fun x => -x) n w fun i => xs.getD i 0))

end GroupDefs

section StateDefs

/-- Explicit-buffer state of one parallel transform call: the input slice
`in`, the working buffer `outJac` (fresh from `make`, hence a separate
buffer), and the output slice `outAff` (also fresh).  Used to verify which
slice each phase writes. -/
structure ParState (F : Type) where
  inp : List (G1Affine F)
  jac : Nat → G1Jac F
  out : Nat → G1Affine F

variable {F : Type} [Field F] [DecidableEq F]

/-- Initial state: `outJac := make([]G1Jac, n)` and `outAff := make(...)` are
zeroed fresh allocations. -/
def initParState (xs : List (G1Affine F)) : ParState F :=
  ⟨xs, fun _ => ⟨0, 0, 0⟩, fun _ => ⟨0, 0⟩⟩

/-- Affine→Jacobian phase on the state: reads `in`, writes only `outJac`. -/
def phaseToJac (js : List Nat) (st : ParState F) : ParState F :=
  js.foldl
    (fun st i =>
      { st with jac := Function.update st.jac i (fromAffine (st.inp.getD i default)) })
    st

/-- Stage phase on the state: the butterfly loops reference only `outJac`. -/
def phaseStages (stageF : (Nat → G1Jac F) → Nat → G1Jac F) (st : ParState F) : ParState F :=
  { st with jac := stageF st.jac }

/-- Per-point output phase: reads `outJac`, writes only `outAff`. -/
def phaseOutPer (js : List Nat) (st : ParState F) : ParState F :=
  js.foldl
    (fun st i => { st with out := Function.update st.out i (fromJacobian (st.jac i)) })
    st

/-- Batch output phase: `BatchJacToAffG1Par` reads `outJac` and returns a
fresh slice, which replaces `outAff`. -/
def phaseOutBatch (w : Nat) (st : ParState F) : ParState F :=
  { st with out := fun i => (BatchJacToAffG1Par ((List.range st.inp.length).map st.jac) w).getD i default }

/-- `MatVecHadamardPar` as a state transformer over its three buffers. -/
def MatVecHadamardParState (add : G1Jac F → G1Jac F → G1Jac F) (neg : G1Jac F → G1Jac F)
    (xs : List (G1Affine F)) (workers : Nat) : ParState F :=
  let n := xs.length
  if n = 0 ∨ n &&& (n - 1) ≠ 0 then initParState xs
  else
    let w := max 1 workers
    phaseOutPer (chunkIdxs n w)
      (phaseStages (runStagesPar add neg n w) (phaseToJac (chunkIdxs n w) (initParState xs)))

/-- `MatVecHadamardParBatch` as a state transformer. -/
def MatVecHadamardParBatchState (add : G1Jac F → G1Jac F → G1Jac F)
    (neg : G1Jac F → G1Jac F) (xs : List (G1Affine F)) (workers : Nat) : ParState F :=
  let n := xs.length
  if n = 0 ∨ n &&& (n - 1) ≠ 0 then initParState xs
  else
    let w := max 1 workers
    phaseOutBatch w
      (phaseStages (runStagesPar add neg n w) (phaseToJac (chunkIdxs n w) (initParState xs)))

/-- `MatVecHadamardParBatchProfile` as a state transformer (tiled stages). -/
def MatVecHadamardParBatchProfileState (add : G1Jac F → G1Jac F → G1Jac F)
    (neg : G1Jac F → G1Jac F) (xs : List (G1Affine F)) (workers : Nat) : ParState F :=
  let n := xs.length
  if n = 0 ∨ n &&& (n - 1) ≠ 0 then initParState xs
  else
    let w := max 1 workers
    phaseOutBatch w
      (phaseStages (runStagesTiled add neg n w) (phaseToJac (chunkIdxs n w) (initParState xs)))

/-- `MatVecHadamardParProfile` as a state transformer (tiled stages). -/
def MatVecHadamardParProfileState (add : G1Jac F → G1Jac F → G1Jac F)
    (neg : G1Jac F → G1Jac F) (xs : List (G1Affine F)) (workers : Nat) : ParState F :=
  let n := xs.length
  if n = 0 ∨ n &&& (n - 1) ≠ 0 then initParState xs
  else
    let w := max 1 workers
    phaseOutPer (chunkIdxs n w)
      (phaseStages (runStagesTiled add neg n w) (phaseToJac (chunkIdxs n w) (initParState xs)))

end StateDefs

section SpecDefs

/-- All buffer indices touched by a pair enumeration, in order. -/
def touchedIdxs (ps : List (Nat × Nat)) : List Nat :=
  ps.flatMap fun p => [p.1, p.2]

variable {J : Type}

/-- Pointwise form of one butterfly stage at distance `step` on `[0, n)`:
position `i` in the lower half of its block becomes `v i ⊕ v (i+step)`, in
the upper half `v (i-step) ⊕ (⊖ v i)`.  The stage bodies of every variant
are proved equal to this. -/
def stagePointwise (add : J → J → J) (neg : J → J) (n step : Nat) (v : Nat → J) :
    Nat → J := fun i =>
  if i < n then
    if i % (2 * step) < step then add (v i) (v (i + step))
    else add (v (i - step)) (neg (v i))
  else v i

end SpecDefs

section CoreLemmas

variable {J : Type}

theorem touchedIdxs_nil : touchedIdxs ([] : List (Nat × Nat)) = [] := rfl

theorem touchedIdxs_cons (p : Nat × Nat) (ps : List (Nat × Nat)) :
    touchedIdxs (p :: ps) = p.1 :: p.2 :: touchedIdxs ps := rfl

theorem touchedIdxs_append (ps qs : List (Nat × Nat)) :
    touchedIdxs (ps ++ qs) = touchedIdxs ps ++ touchedIdxs qs := by
  simp [touchedIdxs]

theorem mem_touchedIdxs_fst {a c : Nat} {ps : List (Nat × Nat)} (h : (a, c) ∈ ps) :
    a ∈ touchedIdxs ps := by
  simp only [touchedIdxs, List.mem_flatMap]
  exact ⟨(a, c), h, by simp⟩

theorem mem_touchedIdxs_snd {a c : Nat} {ps : List (Nat × Nat)} (h : (a, c) ∈ ps) :
    c ∈ touchedIdxs ps := by
  simp only [touchedIdxs, List.mem_flatMap]
  exact ⟨(a, c), h, by simp⟩

variable (add : J → J → J) (neg : J → J)

theorem applyPairs_cons (p : Nat × Nat) (ps : List (Nat × Nat)) (v : Nat → J) :
    applyPairs add neg (p :: ps) v = applyPairs add neg ps (butterfly add neg p.1 p.2 v) :=
  rfl

theorem applyPairs_append (ps qs : List (Nat × Nat)) (v : Nat → J) :
    applyPairs add neg (ps ++ qs) v = applyPairs add neg qs (applyPairs add neg ps v) :=
  List.foldl_append _ _ _ _

theorem butterfly_apply_ne {a c i : Nat} (hia : i ≠ a) (hic : i ≠ c) (v : Nat → J) :
    butterfly add neg a c v i = v i := by
  unfold butterfly
  rw [Function.update_noteq hic, Function.update_noteq hia]

/-- Indices not touched by any pair are left unchanged. -/
theorem applyPairs_frame {i : Nat} (ps : List (Nat × Nat)) (v : Nat → J)
    (hi : i ∉ touchedIdxs ps) : applyPairs add neg ps v i = v i := by
  induction ps generalizing v with
  | nil => rfl
  | cons p ps ih =>
    rw [touchedIdxs_cons] at hi
    simp only [List.mem_cons, not_or] at hi
    rw [applyPairs_cons, ih _ hi.2.2, butterfly_apply_ne add neg hi.1 hi.2.1]

/-- Evaluation of a list of butterflies whose touched indices are pairwise
distinct: the pair `(a, c)` reads the original values and writes
`a ↦ v a ⊕ v c`, `c ↦ v a ⊕ (⊖ v c)`. -/
theorem applyPairs_eval {a c : Nat} (ps : List (Nat × Nat))
    (hnd : (touchedIdxs ps).Nodup) (hmem : (a, c) ∈ ps) (v : Nat → J) :
    applyPairs add neg ps v a = add (v a) (v c) ∧
      applyPairs add neg ps v c = add (v a) (neg (v c)) := by
  induction ps generalizing v with
  | nil => simp at hmem
  | cons p ps ih =>
    rw [touchedIdxs_cons] at hnd
    have hnd1 : p.1 ∉ p.2 :: touchedIdxs ps := (List.nodup_cons.mp hnd).1
    have hnd2 : p.2 ∉ touchedIdxs ps := (List.nodup_cons.mp ((List.nodup_cons.mp hnd).2)).1
    have hndt : (touchedIdxs ps).Nodup := (List.nodup_cons.mp ((List.nodup_cons.mp hnd).2)).2
    rcases List.mem_cons.mp hmem with h | h
    · subst h
      dsimp only at hnd1 hnd2 ⊢
      have hac : a ≠ c := by
        intro hac
        exact hnd1 (by simp [hac])
      have ha : a ∉ touchedIdxs ps := fun hmem' => hnd1 (List.mem_cons_of_mem _ hmem')
      have hc : c ∉ touchedIdxs ps := hnd2
      rw [applyPairs_cons]
      constructor
      · rw [applyPairs_frame add neg ps _ ha]
        unfold butterfly
        rw [Function.update_noteq hac, Function.update_same]
      · rw [applyPairs_frame add neg ps _ hc]
        unfold butterfly
        rw [Function.update_same]
    · have hat : a ∈ touchedIdxs ps := mem_touchedIdxs_fst h
      have hct : c ∈ touchedIdxs ps := mem_touchedIdxs_snd h
      have h1a : p.1 ≠ a := fun he => hnd1 (by simp [he, hat])
      have h1c : p.1 ≠ c := fun he => hnd1 (by simp [he, hct])
      have h2a : p.2 ≠ a := fun he => hnd2 (he ▸ hat)
      have h2c : p.2 ≠ c := fun he => hnd2 (he ▸ hct)
      rw [applyPairs_cons]
      have := ih hndt h (butterfly add neg p.1 p.2 v)
      rw [butterfly_apply_ne add neg (Ne.symm h1a) (Ne.symm h2a) v,
        butterfly_apply_ne add neg (Ne.symm h1c) (Ne.symm h2c) v] at this
      exact this

end CoreLemmas

section StageCharLemmas

variable {J : Type}

theorem flatMap_pair_perm (js : List Nat) (x y : Nat → Nat) :
    (js.flatMap fun j => [x j, y j]).Perm (js.map x ++ js.map y) := by
  induction js with
  | nil => simp
  | cons j js ih =>
    rw [List.flatMap_cons, List.map_cons, List.map_cons]
    refine List.Perm.trans (List.Perm.cons (x j) (List.Perm.cons (y j) ih)) ?_
    exact List.Perm.cons (x j) List.perm_middle.symm

theorem touchedIdxs_flatMap {α : Type} (l : List α) (f : α → List (Nat × Nat)) :
    touchedIdxs (l.flatMap f) = l.flatMap fun a => touchedIdxs (f a) := by
  simp [touchedIdxs, List.flatMap_assoc]

theorem touchedIdxs_map (js : List Nat) (f : Nat → Nat × Nat) :
    touchedIdxs (js.map f) = js.flatMap fun j => [(f j).1, (f j).2] := by
  simp [touchedIdxs, List.flatMap_map]

/-- The indices touched by one block's butterflies are (a permutation of) the
block's index range. -/
theorem touched_block_perm (step b : Nat) :
    (touchedIdxs ((List.range step).map fun j =>
        (b * (2 * step) + j, b * (2 * step) + j + step))).Perm
      (List.range' (b * (2 * step)) (2 * step)) := by
  rw [touchedIdxs_map]
  refine List.Perm.trans (flatMap_pair_perm _ _ _) ?_
  have h1 : (List.range step).map (fun j => b * (2 * step) + j) =
      List.range' (b * (2 * step)) step := (List.range'_eq_map_range _ _).symm
  have h2 : (List.range step).map (fun j => b * (2 * step) + j + step) =
      List.range' (b * (2 * step) + step) step := by
    rw [List.range'_eq_map_range]
    exact List.map_congr_left fun j _ => by omega
  rw [h1, h2]
  have := List.range'_append (b * (2 * step)) step step 1
  simp only [one_mul, Nat.mul_one] at this
  rw [this]
  have : step + step = 2 * step := by omega
  rw [this]

theorem flatMap_range'_blocks (c nb : Nat) :
    ((List.range nb).flatMap fun b => List.range' (b * c) c) = List.range (nb * c) := by
  induction nb with
  | zero => simp
  | succ nb ih =>
    rw [List.range_succ, List.flatMap_append, ih]
    simp only [List.flatMap_cons, List.flatMap_nil, List.append_nil]
    rw [List.range_eq_range', List.range_eq_range']
    have := List.range'_append 0 (nb * c) c 1
    simp only [one_mul, Nat.zero_add] at this
    rw [this]
    congr 1
    ring

/-- Touched indices of the canonical stage pair enumeration: a permutation of
`[0, n)` when `block = 2*step` divides `n`. -/
theorem touched_stagePairs_perm {n step : Nat} (hdvd : 2 * step ∣ n) :
    (touchedIdxs (stagePairs n step)).Perm (List.range n) := by
  unfold stagePairs blockPairs
  rw [touchedIdxs_flatMap]
  refine List.Perm.trans (List.Perm.flatMap_left _ fun b _ => touched_block_perm step b) ?_
  have hb : ∀ b : Nat, b * (2 * step) = (2 * step) * b := fun b => Nat.mul_comm _ _
  have : ((List.range (n / (2 * step))).flatMap fun b => List.range' (b * (2 * step)) (2 * step)) =
      List.range (n / (2 * step) * (2 * step)) := flatMap_range'_blocks (2 * step) (n / (2 * step))
  rw [this, Nat.div_mul_cancel hdvd]

theorem mem_stagePairs {n step : Nat} {p : Nat × Nat} :
    p ∈ stagePairs n step ↔
      ∃ b, b < n / (2 * step) ∧ ∃ j, j < step ∧
        p = (b * (2 * step) + j, b * (2 * step) + j + step) := by
  simp only [stagePairs, blockPairs, List.mem_flatMap, List.mem_map, List.mem_range]
  constructor
  · rintro ⟨b, hb, j, hj, rfl⟩
    exact ⟨b, hb, j, hj, rfl⟩
  · rintro ⟨b, hb, j, hj, rfl⟩
    exact ⟨b, hb, j, hj, rfl⟩

/-- Master stage characterization: executing any pair list that is a
permutation of the canonical stage pairs computes the pointwise stage map. -/
theorem applyPairs_perm_stagePointwise (add : J → J → J) (neg : J → J) {n step : Nat}
    (hs : 0 < step) (hdvd : 2 * step ∣ n) {ps : List (Nat × Nat)}
    (hperm : ps.Perm (stagePairs n step)) (v : Nat → J) :
    applyPairs add neg ps v = stagePointwise add neg n step v := by
  have htperm : (touchedIdxs ps).Perm (List.range n) :=
    List.Perm.trans (List.Perm.flatMap_right _ hperm) (touched_stagePairs_perm hdvd)
  have hnd : (touchedIdxs ps).Nodup := (List.Perm.nodup_iff htperm).mpr (List.nodup_range n)
  have hmemt : ∀ i : Nat, i ∈ touchedIdxs ps ↔ i < n := fun i => by
    rw [List.Perm.mem_iff htperm, List.mem_range]
  have h2s : 0 < 2 * step := by omega
  funext i
  unfold stagePointwise
  by_cases hin : i < n
  · simp only [hin, if_true]
    have hblt : i / (2 * step) < n / (2 * step) := by
      rcases hdvd with ⟨nb, rfl⟩
      rw [Nat.mul_div_cancel_left nb h2s]
      exact Nat.div_lt_of_lt_mul (by omega)
    by_cases hlow : i % (2 * step) < step
    · simp only [hlow, if_true]
      have hpair : (i, i + step) ∈ stagePairs n step := by
        rw [mem_stagePairs]
        refine ⟨i / (2 * step), hblt, i % (2 * step), hlow, ?_⟩
        have hdm : i / (2 * step) * (2 * step) + i % (2 * step) = i := Nat.div_add_mod' i (2 * step)
        simp only [Prod.mk.injEq]
        omega
      have := applyPairs_eval add neg ps hnd ((List.Perm.mem_iff hperm).mpr hpair) v
      exact this.1
    · simp only [hlow, if_false]
      have hmodlt : i % (2 * step) < 2 * step := Nat.mod_lt _ h2s
      have hpair : (i - step, i - step + step) ∈ stagePairs n step := by
        rw [mem_stagePairs]
        refine ⟨i / (2 * step), hblt, i % (2 * step) - step, by omega, ?_⟩
        have hdm : i / (2 * step) * (2 * step) + i % (2 * step) = i := Nat.div_add_mod' i (2 * step)
        simp only [Prod.mk.injEq]
        constructor
        · omega
        · omega
      have hc : i - step + step = i := by
        have := Nat.mod_le i (2 * step)
        omega
      rw [hc] at hpair
      have := applyPairs_eval add neg ps hnd ((List.Perm.mem_iff hperm).mpr hpair) v
      exact this.2
  · simp only [hin, if_false]
    exact applyPairs_frame add neg ps v fun hmem => hin ((hmemt i).mp hmem)

end StageCharLemmas

section TilingLemmas

/-- Disjoint-bit OR is addition: with the low `e` bits of `q * 2^e` clear and
`b < 2^e`, `q*2^e ||| b = q*2^e + b`. -/
theorem mul_two_pow_lor_eq_add (q b e : Nat) (hb : b < 2 ^ e) :
    (q * 2 ^ e) ||| b = q * 2 ^ e + b := by
  apply Nat.eq_of_testBit_eq
  intro i
  rw [Nat.testBit_lor]
  rcases Nat.lt_or_ge i e with hi | hi
  · have h1 : (q * 2 ^ e).testBit i = false := by
      rw [Nat.mul_comm, Nat.testBit_mul_pow_two]
      simp [Nat.not_le.mpr hi]
    have hsplit : q * 2 ^ e + b = 2 ^ i * (2 * (q * 2 ^ (e - i - 1))) + b := by
      have : 2 ^ e = 2 ^ i * (2 * 2 ^ (e - i - 1)) := by
        rw [← pow_succ']
        rw [← pow_add]
        congr 1
        omega
      rw [this]
      ring
    have h2 : (q * 2 ^ e + b).testBit i = b.testBit i := by
      rw [Nat.testBit_to_div_mod, Nat.testBit_to_div_mod, hsplit,
        Nat.mul_add_div (Nat.pos_pow_of_pos i (by omega))]
      rw [decide_eq_decide]
      omega
    rw [h1, h2, Bool.false_or]
  · have hb2 : b < 2 ^ i := lt_of_lt_of_le hb (Nat.pow_le_pow_right (by omega) hi)
    have h1 : b.testBit i = false := Nat.testBit_lt_two_pow hb2
    have hsplit : (q * 2 ^ e + b) / 2 ^ i = q / 2 ^ (i - e) := by
      have hpe : 2 ^ i = 2 ^ e * 2 ^ (i - e) := by
        rw [← pow_add]
        congr 1
        omega
      rw [hpe, ← Nat.div_div_eq_div_mul]
      congr 1
      rw [Nat.mul_comm q (2 ^ e), Nat.mul_add_div (Nat.pos_pow_of_pos e (by omega)),
        Nat.div_eq_of_lt hb]
      omega
    have h2 : (q * 2 ^ e + b).testBit i = q.testBit (i - e) := by
      rw [Nat.testBit_to_div_mod, Nat.testBit_to_div_mod, hsplit]
    have h3 : (q * 2 ^ e).testBit i = q.testBit (i - e) := by
      rw [Nat.mul_comm, Nat.testBit_mul_pow_two]
      simp [hi]
    rw [h1, h2, h3, Bool.or_false]

/-- A positive ceiling-divided chunk count covers the whole range:
`n ≤ t * ((n + t - 1) / t)`. -/
theorem ceil_le_mul (n t : Nat) (ht : 0 < t) : n ≤ t * ((n + t - 1) / t) := by
  have hdm : (n + t - 1) / t * t + (n + t - 1) % t = n + t - 1 := Nat.div_add_mod' _ _
  have hm : (n + t - 1) % t < t := Nat.mod_lt _ ht
  have hcomm : t * ((n + t - 1) / t) = (n + t - 1) / t * t := by ring
  omega

/-- Concatenating the clamped chunks `[w*c, min (w*c+c) n)` for `w < t`
yields exactly `[0, min (t*c) n)`. -/
theorem chunks_concat (c n t : Nat) :
    ((List.range t).flatMap fun w => List.range' (w * c) (min (w * c + c) n - w * c)) =
      List.range (min (t * c) n) := by
  induction t with
  | zero => simp
  | succ t ih =>
    rw [List.range_succ, List.flatMap_append, ih]
    simp only [List.flatMap_cons, List.flatMap_nil, List.append_nil]
    rw [List.range_eq_range', List.range_eq_range']
    have hsucc : (t + 1) * c = t * c + c := by ring
    rcases Nat.lt_or_ge (t * c) n with h | h
    · have h1 : min (t * c) n = t * c := by omega
      have h2 : min (t * c + c) n - t * c = min ((t + 1) * c) n - t * c := by omega
      rw [h1, h2]
      have := List.range'_append 0 (t * c) (min ((t + 1) * c) n - t * c) 1
      simp only [one_mul, Nat.zero_add] at this
      rw [this]
      congr 1
      omega
    · have h1 : min (t * c) n = n := by omega
      have h2 : min (t * c + c) n - t * c = 0 := by omega
      have h3 : min ((t + 1) * c) n = n := by omega
      rw [h1, h2, h3]
      simp

/-- Concatenating the stride-start chunks `[j0, min (j0+c) n)` recovers
`[j0, n)`. -/
theorem strideStarts_concat (c : Nat) (hc : 0 < c) :
    ∀ fuel j0 n, n - j0 ≤ fuel →
      ((strideStarts j0 c n).flatMap fun s => List.range' s (min (s + c) n - s)) =
        List.range' j0 (n - j0) := by
  intro fuel
  induction fuel with
  | zero =>
    intro j0 n hle
    rw [strideStarts]
    have : ¬(0 < c ∧ j0 < n) := by omega
    rw [dif_neg this]
    have : n - j0 = 0 := by omega
    rw [this]
    simp
  | succ fuel ih =>
    intro j0 n hle
    rw [strideStarts]
    by_cases h : j0 < n
    · rw [dif_pos ⟨hc, h⟩, List.flatMap_cons, ih (j0 + c) n (by omega)]
      rcases Nat.lt_or_ge (j0 + c) n with h2 | h2
      · have e1 : min (j0 + c) n - j0 = c := by omega
        rw [e1]
        have := List.range'_append j0 c (n - (j0 + c)) 1
        simp only [one_mul] at this
        rw [this]
        congr 1
        omega
      · have e1 : min (j0 + c) n - j0 = n - j0 := by omega
        have e2 : n - (j0 + c) = 0 := by omega
        rw [e1, e2]
        simp
    · rw [dif_neg (by omega)]
      have : n - j0 = 0 := by omega
      rw [this]
      simp

/-- The chunked block enumeration visits exactly the blocks `0 .. nb-1` in
order. -/
theorem chunkedBlocks_eq_range (nb eff : Nat) (heff : 0 < eff) :
    chunkedBlocks nb eff = List.range nb := by
  unfold chunkedBlocks chunkRange
  rw [chunks_concat]
  congr 1
  have := ceil_le_mul nb eff heff
  omega

/-- The stage pair enumeration of `MatVecHadamardPar` is the canonical one
regardless of the worker count: the chunked goroutines cover the blocks in
order. -/
theorem stageChunkedPairs_eq (n workers step : Nat) :
    stageChunkedPairs n workers step = stagePairs n step := by
  unfold stageChunkedPairs
  by_cases h : min workers (n / (2 * step)) ≤ 1 ∨ n / (2 * step) ≤ 1
  · simp only [h, if_true]
  · simp only [h, if_false]
    unfold stagePairs
    rw [chunkedBlocks_eq_range _ _ (by omega)]

end TilingLemmas

section VariantPairsLemmas

theorem flatMap_congr_my {α β : Type} (l : List α) (f g : α → List β)
    (h : ∀ a ∈ l, f a = g a) : l.flatMap f = l.flatMap g := by
  induction l with
  | nil => rfl
  | cons a l ih =>
    rw [List.flatMap_cons, List.flatMap_cons, h a (by simp), ih fun a ha => h a (by simp [ha])]

theorem range_mul_map {α : Type} (a b : Nat) (f : Nat → α) :
    (List.range (a * b)).map f =
      (List.range a).flatMap fun i => (List.range b).map fun j => f (i * b + j) := by
  induction a with
  | zero => simp
  | succ a ih =>
    have h : (a + 1) * b = a * b + b := by ring
    rw [h, List.range_add, List.map_append, ih, List.range_succ, List.flatMap_append]
    simp only [List.flatMap_cons, List.flatMap_nil, List.append_nil, List.map_map]
    rfl

/-- The bit-trick index enumeration of `MatVecHadamardSerialInPlace` stage `r`
is exactly the canonical block/offset enumeration at `step = 2^r`, in the
same order. -/
theorem serialStagePairs_eq {n r : Nat} (hdvd : 2 * 2 ^ r ∣ n) :
    serialStagePairs n r = stagePairs n (2 ^ r) := by
  obtain ⟨nb, hnb⟩ := hdvd
  have hpow : 0 < 2 ^ r := Nat.pos_pow_of_pos r (by omega)
  have hhalf : n >>> 1 = nb * 2 ^ r := by
    rw [Nat.shiftRight_eq_div_pow, hnb, pow_one]
    have h : 2 * 2 ^ r * nb = 2 * (2 ^ r * nb) := by ring
    rw [h, Nat.mul_div_cancel_left _ (by omega : 0 < 2)]
    ring
  have hnbval : n / (2 * 2 ^ r) = nb := by
    rw [hnb, Nat.mul_div_cancel_left _ (by omega : 0 < 2 * 2 ^ r)]
  unfold serialStagePairs stagePairs blockPairs
  rw [hhalf, hnbval, range_mul_map]
  refine flatMap_congr_my _ _ _ fun b _ => ?_
  refine List.map_congr_left fun j hj => ?_
  rw [List.mem_range] at hj
  have hflip : b * 2 ^ r + j = 2 ^ r * b + j := by ring
  have hk1 : (b * 2 ^ r + j) >>> r = b := by
    rw [Nat.shiftRight_eq_div_pow, hflip, Nat.mul_add_div hpow, Nat.div_eq_of_lt hj]
    omega
  have hk2 : (b * 2 ^ r + j) &&& (1 <<< r - 1) = j := by
    rw [Nat.one_shiftLeft, Nat.and_pow_two_sub_one_eq_mod, hflip, Nat.mul_add_mod,
      Nat.mod_eq_of_lt hj]
  have hlor : (b <<< (r + 1)) ||| j = b * 2 ^ (r + 1) + j := by
    rw [Nat.shiftLeft_eq]
    exact mul_two_pow_lor_eq_add b j (r + 1)
      (lt_of_lt_of_le hj (Nat.pow_le_pow_right (by omega) (by omega)))
  dsimp only
  rw [hk1, hk2, hlor, Nat.one_shiftLeft]
  have hps : 2 ^ (r + 1) = 2 * 2 ^ r := by
    rw [pow_succ]
    ring
  rw [hps]

theorem flatMap_comm_perm {α β γ : Type} (l1 : List α) (l2 : List β) (f : α → β → List γ) :
    (l1.flatMap fun a => l2.flatMap fun b => f a b).Perm
      (l2.flatMap fun b => l1.flatMap fun a => f a b) := by
  induction l1 with
  | nil => simp
  | cons a l1 ih =>
    rw [List.flatMap_cons]
    refine List.Perm.trans (List.Perm.append_left _ ih) ?_
    refine List.Perm.trans (List.flatMap_append_perm l2 (f a) fun b => l1.flatMap fun a => f a b) ?_
    exact List.Perm.refl _

/-- Block-axis tiling regime of the 2D scheduler: tasks cover the blocks in
order, so the pair list equals the canonical one. -/
theorem tiledBlocks_eq (nb step c : Nat) (hc : 0 < c) :
    ((strideStarts 0 c nb).flatMap fun b0 =>
        blockPairs step (List.range' b0 (min (b0 + c) nb - b0)) (List.range' 0 (step - 0))) =
      blockPairs step (List.range nb) (List.range step) := by
  unfold blockPairs
  rw [← List.flatMap_assoc, strideStarts_concat c hc nb 0 nb (by omega)]
  simp only [Nat.sub_zero]
  rw [← List.range_eq_range', ← List.range_eq_range']

/-- Column-axis tiling regime: each column tile spans all blocks, so the pair
list is a permutation (tile-major order) of the canonical one. -/
theorem tiledColumns_perm (nb step c : Nat) (hc : 0 < c) :
    ((strideStarts 0 c step).flatMap fun j0 =>
        blockPairs step (List.range' 0 (nb - 0)) (List.range' j0 (min (j0 + c) step - j0))).Perm
      (blockPairs step (List.range nb) (List.range step)) := by
  unfold blockPairs
  simp only [Nat.sub_zero]
  rw [show List.range' 0 nb = List.range nb from (List.range_eq_range' nb).symm]
  refine List.Perm.trans (flatMap_comm_perm _ _ _) ?_
  have heq : ((List.range nb).flatMap fun b => (strideStarts 0 c step).flatMap fun j0 =>
      (List.range' j0 (min (j0 + c) step - j0)).map fun j =>
        (b * (2 * step) + j, b * (2 * step) + j + step)) =
      (List.range nb).flatMap fun b => (List.range step).map fun j =>
        (b * (2 * step) + j, b * (2 * step) + j + step) := by
    refine flatMap_congr_my _ _ _ fun b _ => ?_
    rw [← List.map_flatMap, strideStarts_concat c hc step 0 step (by omega)]
    simp only [Nat.sub_zero]
    rw [← List.range_eq_range']
  rw [heq]

/-- The 2D-tiled stage pair enumeration of the profiling variants is a
permutation of the canonical one, in either tiling regime. -/
theorem stageTiledPairs_perm {n workers step : Nat} (hw : 0 < workers) (hs : 0 < step) :
    (stageTiledPairs n workers step).Perm (stagePairs n step) := by
  unfold stageTiledPairs stageTasks
  simp only []
  set nb := n / (2 * step) with hnbdef
  set T := workers * 3 with hTdef
  by_cases hreg : nb ≥ T
  · simp only [hreg, if_true]
    rw [List.flatMap_map]
    have hc : 0 < (nb + T - 1) / T := Nat.div_pos (by omega) (by omega)
    have := tiledBlocks_eq nb step ((nb + T - 1) / T) hc
    dsimp only
    rw [this]
    exact List.Perm.refl _
  · simp only [hreg, if_false]
    rw [List.flatMap_map]
    set jT0 := T / max 1 nb with hjT0
    set jT1 := if jT0 < 1 then 1 else jT0 with hjT1
    set jTiles := if jT1 > step then step else jT1 with hjTiles
    have h1 : 0 < jT1 := by
      rw [hjT1]
      split
      · omega
      · omega
    have h2 : 0 < jTiles := by
      rw [hjTiles]
      split
      · exact hs
      · exact h1
    have htile : 0 < (step + jTiles - 1) / jTiles := Nat.div_pos (by omega) h2
    have := tiledColumns_perm nb step ((step + jTiles - 1) / jTiles) htile
    dsimp only
    exact this

end VariantPairsLemmas

section EngineLemmas

variable {J : Type}

theorem foldl_congr_my {α β : Type} (l : List α) (f g : β → α → β) (b : β)
    (h : ∀ x ∈ l, ∀ acc, f acc x = g acc x) : l.foldl f b = l.foldl g b := by
  induction l generalizing b with
  | nil => rfl
  | cons a l ih =>
    rw [List.foldl_cons, List.foldl_cons, h a (by simp) b]
    exact ih _ fun x hx acc => h x (by simp [hx]) acc

theorem goStepLoop_unfold (f : Nat → (Nat → J) → Nat → J) (n t : Nat) (v : Nat → J) :
    goStepLoop f n t v =
      if 0 < t ∧ t < n then goStepLoop f n (2 * t) (f t v) else v := by
  rw [goStepLoop]
  split
  · rfl
  · rfl

theorem goStepLoop_congr (f g : Nat → (Nat → J) → Nat → J) (n : Nat) (P : Nat → Prop)
    (hP : ∀ s, P s → P (2 * s))
    (h : ∀ s v, P s → 0 < s → s < n → f s v = g s v) :
    ∀ fuel t v, n - t ≤ fuel → P t → goStepLoop f n t v = goStepLoop g n t v := by
  intro fuel
  induction fuel with
  | zero =>
    intro t v hle hPt
    rw [goStepLoop_unfold f n t v, goStepLoop_unfold g n t v]
    rw [if_neg (by omega), if_neg (by omega)]
  | succ fuel ih =>
    intro t v hle hPt
    rw [goStepLoop_unfold f n t v, goStepLoop_unfold g n t v]
    by_cases hc : 0 < t ∧ t < n
    · rw [if_pos hc, if_pos hc, h t v hPt hc.1 hc.2]
      exact ih (2 * t) _ (by omega) (hP t hPt)
    · rw [if_neg hc, if_neg hc]

theorem goStepLoop_pow (f : Nat → (Nat → J) → Nat → J) (m : Nat) :
    ∀ fuel r v, m - r ≤ fuel → r ≤ m →
      goStepLoop f (2 ^ m) (2 ^ r) v =
        (List.range' r (m - r)).foldl (fun v i => f (2 ^ i) v) v := by
  intro fuel
  induction fuel with
  | zero =>
    intro r v hle hr
    have hrm : r = m := by omega
    subst hrm
    rw [goStepLoop_unfold, if_neg (by simp), Nat.sub_self]
    simp
  | succ fuel ih =>
    intro r v hle hr
    rcases Nat.lt_or_ge r m with hlt | hge
    · rw [goStepLoop_unfold, if_pos ⟨Nat.pos_pow_of_pos r (by omega),
        Nat.pow_lt_pow_right (by omega) hlt⟩]
      have h2 : 2 * 2 ^ r = 2 ^ (r + 1) := by
        rw [pow_succ]
        ring
      rw [h2, ih (r + 1) _ (by omega) (by omega)]
      have hrange : List.range' r (m - r) = r :: List.range' (r + 1) (m - (r + 1)) := by
        have : m - r = (m - (r + 1)) + 1 := by omega
        rw [this, List.range'_succ]
      rw [hrange, List.foldl_cons]
    · have hrm : r = m := by omega
      subst hrm
      rw [goStepLoop_unfold, if_neg (by simp), Nat.sub_self]
      simp

theorem stageChunked_eq_pointwise (add : J → J → J) (neg : J → J) {n step : Nat}
    (hs : 0 < step) (hdvd : 2 * step ∣ n) (workers : Nat) (v : Nat → J) :
    stageChunked add neg n workers step v = stagePointwise add neg n step v := by
  unfold stageChunked
  rw [stageChunkedPairs_eq]
  exact applyPairs_perm_stagePointwise add neg hs hdvd (List.Perm.refl _) v

theorem stageTiled_eq_pointwise (add : J → J → J) (neg : J → J) {n step workers : Nat}
    (hw : 0 < workers) (hs : 0 < step) (hdvd : 2 * step ∣ n) (v : Nat → J) :
    stageTiled add neg n workers step v = stagePointwise add neg n step v :=
  applyPairs_perm_stagePointwise add neg hs hdvd (stageTiledPairs_perm hw hs) v

theorem serialStage_eq_pointwise (add : J → J → J) (neg : J → J) {n r : Nat}
    (hdvd : 2 * 2 ^ r ∣ n) (v : Nat → J) :
    applyPairs add neg (serialStagePairs n r) v = stagePointwise add neg n (2 ^ r) v := by
  rw [serialStagePairs_eq hdvd]
  exact applyPairs_perm_stagePointwise add neg (Nat.pos_pow_of_pos r (by omega)) hdvd
    (List.Perm.refl _) v

theorem pow_dvd_of_lt_pow {r m : Nat} (h : r < m) : 2 * 2 ^ r ∣ 2 ^ m := by
  have h2 : 2 * 2 ^ r = 2 ^ (r + 1) := by
    rw [pow_succ]
    ring
  rw [h2]
  exact pow_dvd_pow 2 (by omega)

theorem runStagesPar_eq_fold (add : J → J → J) (neg : J → J) (m workers : Nat) (v : Nat → J) :
    runStagesPar add neg (2 ^ m) workers v =
      (List.range m).foldl (fun v r => stagePointwise add neg (2 ^ m) (2 ^ r) v) v := by
  unfold runStagesPar
  have hcongr := goStepLoop_congr (fun step v => stageChunked add neg (2 ^ m) workers step v)
    (fun step v => stagePointwise add neg (2 ^ m) step v) (2 ^ m) (fun s => ∃ r, s = 2 ^ r)
    (fun s ⟨r, hr⟩ => ⟨r + 1, by rw [hr, pow_succ]; ring⟩)
    (fun s v ⟨r, hr⟩ hs hlt => by
      subst hr
      have hrm : r < m := (Nat.pow_lt_pow_iff_right (by omega)).mp hlt
      exact stageChunked_eq_pointwise add neg (Nat.pos_pow_of_pos r (by omega))
        (pow_dvd_of_lt_pow hrm) workers v)
    (2 ^ m) 1 v (Nat.sub_le _ _) ⟨0, rfl⟩
  rw [hcongr]
  have h1 : (1 : Nat) = 2 ^ 0 := rfl
  rw [h1, goStepLoop_pow _ m m 0 v (Nat.sub_le _ _) (Nat.zero_le m), Nat.sub_zero,
    ← List.range_eq_range']

theorem runStagesTiled_eq_fold (add : J → J → J) (neg : J → J) (m workers : Nat)
    (hw : 0 < workers) (v : Nat → J) :
    runStagesTiled add neg (2 ^ m) workers v =
      (List.range m).foldl (fun v r => stagePointwise add neg (2 ^ m) (2 ^ r) v) v := by
  unfold runStagesTiled
  have hcongr := goStepLoop_congr (fun step v => stageTiled add neg (2 ^ m) workers step v)
    (fun step v => stagePointwise add neg (2 ^ m) step v) (2 ^ m) (fun s => ∃ r, s = 2 ^ r)
    (fun s ⟨r, hr⟩ => ⟨r + 1, by rw [hr, pow_succ]; ring⟩)
    (fun s v ⟨r, hr⟩ hs hlt => by
      subst hr
      have hrm : r < m := (Nat.pow_lt_pow_iff_right (by omega)).mp hlt
      exact stageTiled_eq_pointwise add neg hw (Nat.pos_pow_of_pos r (by omega))
        (pow_dvd_of_lt_pow hrm) v)
    (2 ^ m) 1 v (Nat.sub_le _ _) ⟨0, rfl⟩
  rw [hcongr]
  have h1 : (1 : Nat) = 2 ^ 0 := rfl
  rw [h1, goStepLoop_pow _ m m 0 v (Nat.sub_le _ _) (Nat.zero_le m), Nat.sub_zero,
    ← List.range_eq_range']

theorem runStagesSerial_eq_fold (add : J → J → J) (neg : J → J) (m : Nat) (v : Nat → J) :
    runStagesSerial add neg (2 ^ m) v =
      (List.range m).foldl (fun v r => stagePointwise add neg (2 ^ m) (2 ^ r) v) v := by
  unfold runStagesSerial
  rw [Nat.size_pow, Nat.add_sub_cancel]
  exact foldl_congr_my _ _ _ v fun r hr acc => by
    rw [List.mem_range] at hr
    exact serialStage_eq_pointwise add neg (pow_dvd_of_lt_pow hr) acc

end EngineLemmas

section ConversionLemmas

theorem chunkIdxs_eq_range (n workers : Nat) : chunkIdxs n workers = List.range n := by
  unfold chunkIdxs parallelRangeChunks
  by_cases h : workers ≤ 1 ∨ n < 1024
  · simp only [h, if_true, List.flatMap_cons, List.flatMap_nil, List.append_nil,
      Nat.sub_zero]
    rw [← List.range_eq_range']
  · simp only [h, if_false]
    rw [List.flatMap_map]
    simp only []
    rw [chunks_concat ((n + workers - 1) / workers) n workers]
    congr 1
    have := ceil_le_mul n workers (by omega)
    have hcomm : workers * ((n + workers - 1) / workers) =
        (n + workers - 1) / workers * workers := by ring
    omega

theorem updFold_apply {A : Type} (js : List Nat) (g : Nat → A) (o0 : Nat → A) (i : Nat) :
    (js.foldl (fun o j => Function.update o j (g j)) o0) i =
      if i ∈ js then g i else o0 i := by
  induction js generalizing o0 with
  | nil => simp
  | cons j js ih =>
    rw [List.foldl_cons, ih]
    by_cases hmem : i ∈ js
    · simp [hmem]
    · simp only [hmem, if_false, List.mem_cons]
      by_cases hij : i = j
      · subst hij
        rw [Function.update_same]
        simp
      · rw [Function.update_noteq hij]
        simp [hij, hmem]

end ConversionLemmas

section AgreeLemmas

variable {J : Type}

/-- A butterfly stage reads only indices below `n` when evaluated below `n`:
agreement of two buffers on `[0, n)` is preserved. -/
theorem stagePointwise_agree (add : J → J → J) (neg : J → J) {n step : Nat}
    (hdvd : 2 * step ∣ n) {u v : Nat → J} (h : ∀ i < n, u i = v i) :
    ∀ i < n, stagePointwise add neg n step u i = stagePointwise add neg n step v i := by
  intro i hin
  rcases hdvd with ⟨nb, hnb⟩
  unfold stagePointwise
  simp only [hin, if_true]
  by_cases hlow : i % (2 * step) < step
  · simp only [hlow, if_true]
    have hdm : i / (2 * step) * (2 * step) + i % (2 * step) = i := Nat.div_add_mod' i _
    have hblt : i / (2 * step) < nb := by
      have hin2 : i < 2 * step * nb := by
        rw [← hnb]
        exact hin
      exact Nat.div_lt_of_lt_mul hin2
    have hble : i / (2 * step) * (2 * step) + 2 * step ≤ n := by
      rw [hnb]
      have hb1 : i / (2 * step) + 1 ≤ nb := hblt
      calc i / (2 * step) * (2 * step) + 2 * step = (i / (2 * step) + 1) * (2 * step) := by
            ring
        _ ≤ nb * (2 * step) := Nat.mul_le_mul_right _ hb1
        _ = 2 * step * nb := by ring
    have hstep : i + step < n := by omega
    rw [h i hin, h (i + step) hstep]
  · simp only [hlow, if_false]
    rw [h i hin, h (i - step) (by omega)]

/-- Agreement on `[0, 2^m)` is preserved by any prefix of the stage cascade:
every stage reads only in-range indices when evaluated in range. -/
theorem stagesFold_agree (add : J → J → J) (neg : J → J) (m : Nat) :
    ∀ (t : Nat), t ≤ m → ∀ {u v : Nat → J}, (∀ i < 2 ^ m, u i = v i) →
      ∀ i < 2 ^ m,
        (List.range t).foldl (fun v r => stagePointwise add neg (2 ^ m) (2 ^ r) v) u i =
          (List.range t).foldl (fun v r => stagePointwise add neg (2 ^ m) (2 ^ r) v) v i := by
  intro t
  induction t with
  | zero =>
    intro _ u v h i hi
    exact h i hi
  | succ t ih =>
    intro hle u v h i hi
    rw [List.range_succ, List.foldl_append, List.foldl_append]
    simp only [List.foldl_cons, List.foldl_nil]
    exact stagePointwise_agree add neg (pow_dvd_of_lt_pow (by omega))
      (fun j hj => ih (by omega) h j hj) i hi

end AgreeLemmas

section PowTwoLemmas

/-- A power of two passes the source's bit test `n & (n-1) == 0`. -/
theorem pow_two_and_pred (m : Nat) : 2 ^ m &&& (2 ^ m - 1) = 0 := by
  rw [Nat.and_pow_two_sub_one_eq_mod]
  exact Nat.mod_self _

theorem and_pred_of_double {m : Nat} (hm : 0 < m) (h : (2 * m) &&& (2 * m - 1) = 0) :
    m &&& (m - 1) = 0 := by
  apply Nat.eq_of_testBit_eq
  intro i
  rw [Nat.zero_testBit, Nat.testBit_land]
  have hbit := congrArg (fun x => x.testBit (i + 1)) h
  simp only [Nat.zero_testBit, Nat.testBit_land] at hbit
  rw [Nat.testBit_succ, Nat.testBit_succ] at hbit
  have h1 : 2 * m / 2 = m := by omega
  have h2 : (2 * m - 1) / 2 = m - 1 := by omega
  rw [h1, h2] at hbit
  exact hbit

theorem and_pred_ne_of_odd {m : Nat} (hm : 1 < m) (hodd : m % 2 = 1) :
    m &&& (m - 1) ≠ 0 := by
  intro h
  have hhalf : m / 2 ≠ 0 := by omega
  obtain ⟨j, hj, _⟩ := Nat.exists_most_significant_bit hhalf
  have hbit := congrArg (fun x => x.testBit (j + 1)) h
  simp only [Nat.zero_testBit, Nat.testBit_land] at hbit
  rw [Nat.testBit_succ, Nat.testBit_succ] at hbit
  have h2 : (m - 1) / 2 = m / 2 := by omega
  rw [h2, hj] at hbit
  simp at hbit

/-- The source's test `n > 0 && n & (n-1) == 0` (util.go `isPowerOfTwo`)
holds exactly for powers of two. -/
theorem and_pred_eq_zero_iff_pow {n : Nat} (hn : 0 < n) :
    n &&& (n - 1) = 0 ↔ ∃ k, n = 2 ^ k := by
  constructor
  · intro h
    induction n using Nat.strong_induction_on with
    | _ n ih =>
      rcases Nat.lt_or_ge n 2 with h2 | h2
      · have : n = 1 := by omega
        exact ⟨0, by omega⟩
      · rcases Nat.even_or_odd n with he | ho
        · obtain ⟨m, hm⟩ := he
          have hm2 : n = 2 * m := by omega
          subst hm2
          obtain ⟨k, hk⟩ := ih m (by omega) (by omega)
            (and_pred_of_double (by omega) h)
          exact ⟨k + 1, by rw [hk, pow_succ]; ring⟩
        · exfalso
          exact and_pred_ne_of_odd (by omega) (Nat.odd_iff.mp ho) h
  · rintro ⟨k, rfl⟩
    exact pow_two_and_pred k

end PowTwoLemmas

section ClaimC4

/-- No natural power of two equals 3. -/
theorem three_ne_pow : ¬ ∃ k : Nat, (3 : Nat) = 2 ^ k := by
  rintro ⟨k, hk⟩
  match k with
  | 0 => simp at hk
  | 1 => simp at hk
  | (k + 2) =>
    have h4 : 4 ≤ 2 ^ (k + 2) := by
      have := Nat.pow_le_pow_right (show 1 ≤ 2 by omega) (show 2 ≤ k + 2 by omega)
      simpa using this
    omega

/-- C4: every public transform variant fails with the size error for every
input whose length is a non-zero non-power-of-two, and succeeds with an empty
result (the serial variant: the unchanged empty input) for length 0. -/
theorem C4_size_validation {F : Type} [Field F] [DecidableEq F]
    (add : G1Jac F → G1Jac F → G1Jac F) (neg : G1Jac F → G1Jac F)
    (xs : List (G1Affine F)) (workers : Nat) :
    (xs.length = 0 →
      MatVecHadamardPar add neg xs workers = .ok [] ∧
      MatVecHadamardParBatch add neg xs workers = .ok [] ∧
      MatVecHadamardParBatchProfile add neg xs workers = .ok ([], ⟨0, 0, 0⟩) ∧
      MatVecHadamardParProfile add neg xs workers = .ok ([], ⟨0, 0, 0⟩) ∧
      MatVecHadamardSerialInPlace add neg xs = .ok []) ∧
    (xs.length ≠ 0 → (¬ ∃ k, xs.length = 2 ^ k) →
      MatVecHadamardPar add neg xs workers =
        .error "MatVecHadamardPar: length must be a power of two" ∧
      MatVecHadamardParBatch add neg xs workers =
        .error "MatVecHadamardParBatch: length must be a power of two" ∧
      MatVecHadamardParBatchProfile add neg xs workers =
        .error "MatVecHadamardParBatchProfile: length must be a power of two" ∧
      MatVecHadamardParProfile add neg xs workers =
        .error "MatVecHadamardParProfile: length must be a power of two" ∧
      MatVecHadamardSerialInPlace add neg xs =
        .error "MatVecHadamardSerialInPlace: length must be a power of two") := by
  constructor
  · intro h0
    have hxs : xs = [] := List.length_eq_zero.mp h0
    subst hxs
    refine ⟨?_, ?_, ?_, ?_, ?_⟩ <;> rfl
  · intro h0 hnp
    have hbit : xs.length &&& (xs.length - 1) ≠ 0 := fun h =>
      hnp ((and_pred_eq_zero_iff_pow (by omega)).mp h)
    refine ⟨?_, ?_, ?_, ?_, ?_⟩
    · unfold MatVecHadamardPar
      rw [if_neg h0, if_pos hbit]
    · unfold MatVecHadamardParBatch
      rw [if_neg h0, if_pos hbit]
    · unfold MatVecHadamardParBatchProfile
      rw [if_neg h0, if_pos hbit]
    · unfold MatVecHadamardParProfile
      rw [if_neg h0, if_pos hbit]
    · unfold MatVecHadamardSerialInPlace
      rw [if_neg h0, if_pos hbit]

/-- Witness for C4 at the empty input and at a length-3 input. -/
theorem C4_size_validation_witness :
    (([] : List (G1Affine ℚ)).length = 0 ∧
      MatVecHadamardPar (fun a _ => a) id ([] : List (G1Affine ℚ)) 4 = .ok []) ∧
    ((List.replicate 3 (⟨0, 0⟩ : G1Affine ℚ)).length ≠ 0 ∧
      MatVecHadamardPar (fun a _ => a) id (List.replicate 3 (⟨0, 0⟩ : G1Affine ℚ)) 4 =
        .error "MatVecHadamardPar: length must be a power of two") := by
  constructor
  · exact ⟨rfl, ((C4_size_validation (fun a _ => a) id ([] : List (G1Affine ℚ)) 4).1 rfl).1⟩
  · exact ⟨by decide,
      ((C4_size_validation (fun a _ => a) id (List.replicate 3 (⟨0, 0⟩ : G1Affine ℚ)) 4).2
        (by decide) three_ne_pow).1⟩

end ClaimC4

section ClaimC9

variable {F : Type} [Field F] [DecidableEq F]

theorem phaseToJac_inp (js : List Nat) (st : ParState F) : (phaseToJac js st).inp = st.inp := by
  unfold phaseToJac
  induction js generalizing st with
  | nil => rfl
  | cons j js ih =>
    rw [List.foldl_cons]
    exact ih _

theorem phaseOutPer_inp (js : List Nat) (st : ParState F) : (phaseOutPer js st).inp = st.inp := by
  unfold phaseOutPer
  induction js generalizing st with
  | nil => rfl
  | cons j js ih =>
    rw [List.foldl_cons]
    exact ih _

/-- C9: the four parallel transform variants never modify the input slice:
after the call, the `in` buffer of the state model holds exactly the original
elements — every loop writes only the freshly allocated `outJac`/`outAff`
buffers (unlike the serial reference, which overwrites `in`). -/
theorem C9_input_unmodified (add : G1Jac F → G1Jac F → G1Jac F) (neg : G1Jac F → G1Jac F)
    (xs : List (G1Affine F)) (workers : Nat) :
    (MatVecHadamardParState add neg xs workers).inp = xs ∧
    (MatVecHadamardParBatchState add neg xs workers).inp = xs ∧
    (MatVecHadamardParBatchProfileState add neg xs workers).inp = xs ∧
    (MatVecHadamardParProfileState add neg xs workers).inp = xs := by
  refine ⟨?_, ?_, ?_, ?_⟩
  · unfold MatVecHadamardParState
    dsimp only
    split
    · rfl
    · rw [phaseOutPer_inp]
      exact phaseToJac_inp _ _
  · unfold MatVecHadamardParBatchState
    dsimp only
    split
    · rfl
    · exact phaseToJac_inp _ _
  · unfold MatVecHadamardParBatchProfileState
    dsimp only
    split
    · rfl
    · exact phaseToJac_inp _ _
  · unfold MatVecHadamardParProfileState
    dsimp only
    split
    · rfl
    · rw [phaseOutPer_inp]
      exact phaseToJac_inp _ _

end ClaimC9

section ClaimC5

/-- C5: within a stage (`step = 2^r`, `block = 2*step`), the pair enumerations
of both schedulers — the block-chunked goroutines of `MatVecHadamardPar` and
the 2D task tiling of the profiling variants — generate only pairs
`(a, c) = (b*block + j, a + step)` with `a < c`, and the multiset of all
indices they touch is exactly `[0, n)` with no repetition: every buffer index
is written by exactly one task as one half of exactly one pair. -/
theorem C5_stage_partition (n workers step : Nat) (hs : 0 < step) (hw : 0 < workers)
    (hdvd : 2 * step ∣ n) :
    (∀ p ∈ stageChunkedPairs n workers step, ∃ b j, b < n / (2 * step) ∧ j < step ∧
      p.1 = b * (2 * step) + j ∧ p.2 = p.1 + step ∧ p.1 < p.2) ∧
    (touchedIdxs (stageChunkedPairs n workers step)).Perm (List.range n) ∧
    (∀ p ∈ stageTiledPairs n workers step, ∃ b j, b < n / (2 * step) ∧ j < step ∧
      p.1 = b * (2 * step) + j ∧ p.2 = p.1 + step ∧ p.1 < p.2) ∧
    (touchedIdxs (stageTiledPairs n workers step)).Perm (List.range n) := by
  have hshape : ∀ p ∈ stagePairs n step, ∃ b j, b < n / (2 * step) ∧ j < step ∧
      p.1 = b * (2 * step) + j ∧ p.2 = p.1 + step ∧ p.1 < p.2 := by
    intro p hp
    obtain ⟨b, hb, j, hj, rfl⟩ := mem_stagePairs.mp hp
    exact ⟨b, j, hb, hj, rfl, rfl, by omega⟩
  have htperm := @stageTiledPairs_perm n workers step hw hs
  refine ⟨?_, ?_, ?_, ?_⟩
  · intro p hp
    rw [stageChunkedPairs_eq] at hp
    exact hshape p hp
  · rw [stageChunkedPairs_eq]
    exact touched_stagePairs_perm hdvd
  · intro p hp
    exact hshape p (htperm.mem_iff.mp hp)
  · exact List.Perm.trans (List.Perm.flatMap_right _ htperm) (touched_stagePairs_perm hdvd)

/-- Witness for C5 at `n = 8`, `workers = 3`, `step = 2`. -/
theorem C5_stage_partition_witness :
    0 < 2 ∧ 0 < 3 ∧ 2 * 2 ∣ 8 ∧
    ((∀ p ∈ stageChunkedPairs 8 3 2, ∃ b j, b < 8 / (2 * 2) ∧ j < 2 ∧
      p.1 = b * (2 * 2) + j ∧ p.2 = p.1 + 2 ∧ p.1 < p.2) ∧
    (touchedIdxs (stageChunkedPairs 8 3 2)).Perm (List.range 8) ∧
    (∀ p ∈ stageTiledPairs 8 3 2, ∃ b j, b < 8 / (2 * 2) ∧ j < 2 ∧
      p.1 = b * (2 * 2) + j ∧ p.2 = p.1 + 2 ∧ p.1 < p.2) ∧
    (touchedIdxs (stageTiledPairs 8 3 2)).Perm (List.range 8)) :=
  ⟨by omega, by omega, by omega,
    C5_stage_partition 8 3 2 (by omega) (by omega) (by omega)⟩

end ClaimC5

section ValidPathLemmas

variable {F : Type} [Field F] [DecidableEq F]

theorem perPointToAff_apply (jac : Nat → G1Jac F) (n workers i : Nat) (hi : i < n) :
    perPointToAff jac n workers i = fromJacobian (jac i) := by
  unfold perPointToAff
  rw [updFold_apply (chunkIdxs n workers) (fun i => fromJacobian (jac i)) _ i,
    chunkIdxs_eq_range]
  simp [hi]

theorem toJacBuf_apply (xs : List (G1Affine F)) (workers i : Nat) (hi : i < xs.length) :
    toJacBuf xs workers i = fromAffine (xs.getD i default) := by
  unfold toJacBuf
  rw [updFold_apply (chunkIdxs xs.length workers) (fun i => fromAffine (xs.getD i default)) _ i,
    chunkIdxs_eq_range]
  simp [hi]

theorem MatVecHadamardPar_valid (add : G1Jac F → G1Jac F → G1Jac F) (neg : G1Jac F → G1Jac F)
    (xs : List (G1Affine F)) (m workers : Nat) (hm : xs.length = 2 ^ m) :
    MatVecHadamardPar add neg xs workers = .ok ((List.range (2 ^ m)).map
      (perPointToAff (runStagesPar add neg (2 ^ m) (max 1 workers)
        (toJacBuf xs (max 1 workers))) (2 ^ m) (max 1 workers))) := by
  unfold MatVecHadamardPar
  rw [hm, if_neg (Nat.two_pow_pos m).ne', if_neg (not_not_intro (pow_two_and_pred m))]

theorem MatVecHadamardParBatch_valid (add : G1Jac F → G1Jac F → G1Jac F)
    (neg : G1Jac F → G1Jac F) (xs : List (G1Affine F)) (m workers : Nat)
    (hm : xs.length = 2 ^ m) :
    MatVecHadamardParBatch add neg xs workers = .ok (BatchJacToAffG1Par
      ((List.range (2 ^ m)).map (runStagesPar add neg (2 ^ m) (max 1 workers)
        (toJacBuf xs (max 1 workers)))) (max 1 workers)) := by
  unfold MatVecHadamardParBatch
  rw [hm, if_neg (Nat.two_pow_pos m).ne', if_neg (not_not_intro (pow_two_and_pred m))]

theorem MatVecHadamardParBatchProfile_valid (add : G1Jac F → G1Jac F → G1Jac F)
    (neg : G1Jac F → G1Jac F) (xs : List (G1Affine F)) (m workers : Nat)
    (hm : xs.length = 2 ^ m) :
    MatVecHadamardParBatchProfile add neg xs workers = .ok (BatchJacToAffG1Par
      ((List.range (2 ^ m)).map (runStagesTiled add neg (2 ^ m) (max 1 workers)
        (toJacBuf xs (max 1 workers)))) (max 1 workers),
      ⟨2 ^ m, max 1 workers, stagesCount (2 ^ m) 1⟩) := by
  unfold MatVecHadamardParBatchProfile
  rw [hm, if_neg (Nat.two_pow_pos m).ne', if_neg (not_not_intro (pow_two_and_pred m))]

theorem MatVecHadamardParProfile_valid (add : G1Jac F → G1Jac F → G1Jac F)
    (neg : G1Jac F → G1Jac F) (xs : List (G1Affine F)) (m workers : Nat)
    (hm : xs.length = 2 ^ m) :
    MatVecHadamardParProfile add neg xs workers = .ok (((List.range (2 ^ m)).map
      (perPointToAff (runStagesTiled add neg (2 ^ m) (max 1 workers)
        (toJacBuf xs (max 1 workers))) (2 ^ m) (max 1 workers))),
      ⟨2 ^ m, max 1 workers, stagesCount (2 ^ m) 1⟩) := by
  unfold MatVecHadamardParProfile
  rw [hm, if_neg (Nat.two_pow_pos m).ne', if_neg (not_not_intro (pow_two_and_pred m))]

theorem MatVecHadamardSerialInPlace_valid (add : G1Jac F → G1Jac F → G1Jac F)
    (neg : G1Jac F → G1Jac F) (xs : List (G1Affine F)) (m : Nat) (hm : xs.length = 2 ^ m) :
    MatVecHadamardSerialInPlace add neg xs = .ok ((List.range (2 ^ m)).map fun i =>
      fromJacobian (runStagesSerial add neg (2 ^ m)
        (fun i => fromAffine (xs.getD i default)) i)) := by
  unfold MatVecHadamardSerialInPlace
  rw [hm, if_neg (Nat.two_pow_pos m).ne', if_neg (not_not_intro (pow_two_and_pred m))]

end ValidPathLemmas


section ClaimC8

variable {F : Type} [Field F] [DecidableEq F]

/-- C8: the profiling variants return exactly the same affine result as their
non-profiling counterparts on the same input and worker count; the timing
profile is returned alongside and never affects the numeric result. -/
theorem C8_profile_result_equiv (add : G1Jac F → G1Jac F → G1Jac F)
    (neg : G1Jac F → G1Jac F) (xs : List (G1Affine F)) (m workers : Nat)
    (hm : xs.length = 0 ∨ xs.length = 2 ^ m) :
    Except.map Prod.fst (MatVecHadamardParBatchProfile add neg xs workers) =
      MatVecHadamardParBatch add neg xs workers ∧
    Except.map Prod.fst (MatVecHadamardParProfile add neg xs workers) =
      MatVecHadamardPar add neg xs workers := by
  rcases hm with h0 | hm
  · have hxs : xs = [] := List.length_eq_zero.mp h0
    subst hxs
    exact ⟨rfl, rfl⟩
  · have hw : 0 < max 1 workers := by omega
    have hstages : runStagesTiled add neg (2 ^ m) (max 1 workers)
        (toJacBuf xs (max 1 workers)) =
        runStagesPar add neg (2 ^ m) (max 1 workers) (toJacBuf xs (max 1 workers)) := by
      rw [runStagesTiled_eq_fold add neg m (max 1 workers) hw,
        runStagesPar_eq_fold]
    constructor
    · rw [MatVecHadamardParBatchProfile_valid add neg xs m workers hm,
        MatVecHadamardParBatch_valid add neg xs m workers hm]
      simp only [Except.map]
      rw [hstages]
    · rw [MatVecHadamardParProfile_valid add neg xs m workers hm,
        MatVecHadamardPar_valid add neg xs m workers hm]
      simp only [Except.map]
      rw [hstages]

/-- Witness for C8 at `N = 2`, `workers = 3`. -/
theorem C8_profile_result_equiv_witness :
    ((List.replicate 2 (⟨0, 1⟩ : G1Affine ℚ)).length = 0 ∨
      (List.replicate 2 (⟨0, 1⟩ : G1Affine ℚ)).length = 2 ^ 1) ∧
    Except.map Prod.fst
        (MatVecHadamardParBatchProfile (fun a _ => a) id
          (List.replicate 2 (⟨0, 1⟩ : G1Affine ℚ)) 3) =
      MatVecHadamardParBatch (fun a _ => a) id (List.replicate 2 (⟨0, 1⟩ : G1Affine ℚ)) 3 :=
  ⟨Or.inr rfl,
    (C8_profile_result_equiv (fun a _ => a) id
      (List.replicate 2 (⟨0, 1⟩ : G1Affine ℚ)) 1 3 (Or.inr rfl)).1⟩

end ClaimC8

section BatchLemmas

theorem condUpdFold_apply {A : Type} (js : List Nat) (P : Nat → Prop) [DecidablePred P]
    (g : Nat → A) (o0 : Nat → A) (i : Nat) :
    (js.foldl (fun o j => if P j then Function.update o j (g j) else o) o0) i =
      if i ∈ js ∧ P i then g i else o0 i := by
  induction js generalizing o0 with
  | nil => simp
  | cons j js ih =>
    rw [List.foldl_cons, ih]
    by_cases hmem : i ∈ js ∧ P i
    · simp [hmem]
    · simp only [hmem, if_false]
      by_cases hij : i = j
      · subst hij
        by_cases hp : P i
        · rw [if_pos hp, Function.update_same]
          simp [hp]
        · rw [if_neg hp]
          simp [hp, hmem]
      · by_cases hp : P j
        · rw [if_pos hp, Function.update_noteq hij]
          simp only [List.mem_cons]
          rw [if_neg (by tauto)]
        · rw [if_neg hp]
          simp only [List.mem_cons]
          rw [if_neg (by tauto)]

theorem keyedFold_frame {A : Type} (js : List Nat) (f : Nat → Nat) (g : Nat → A)
    (o0 : Nat → A) {i : Nat} (hi : i ∉ js.map f) :
    (js.foldl (fun o j => Function.update o (f j) (g j)) o0) i = o0 i := by
  induction js generalizing o0 with
  | nil => rfl
  | cons j js ih =>
    simp only [List.map_cons, List.mem_cons, not_or] at hi
    rw [List.foldl_cons, ih _ hi.2, Function.update_noteq hi.1]

theorem keyedFold_hit {A : Type} (js : List Nat) (f : Nat → Nat) (g : Nat → A)
    (o0 : Nat → A) (hnd : js.Nodup)
    (hinj : ∀ j1 ∈ js, ∀ j2 ∈ js, f j1 = f j2 → j1 = j2) {j : Nat} (hj : j ∈ js) :
    (js.foldl (fun o j => Function.update o (f j) (g j)) o0) (f j) = g j := by
  induction js generalizing o0 with
  | nil => simp at hj
  | cons j0 js ih =>
    rw [List.foldl_cons]
    rcases List.mem_cons.mp hj with h | h
    · subst h
      have hnotin : f j ∉ js.map f := by
        intro hmem
        obtain ⟨j', hj', hfeq⟩ := List.mem_map.mp hmem
        have : j' = j := hinj j' (List.mem_cons_of_mem _ hj') j (List.mem_cons_self _ _) hfeq
        subst this
        exact (List.nodup_cons.mp hnd).1 hj'
      rw [keyedFold_frame js f g _ hnotin, Function.update_same]
    · exact ih _ (List.nodup_cons.mp hnd).2
        (fun j1 h1 j2 h2 => hinj j1 (List.mem_cons_of_mem _ h1) j2 (List.mem_cons_of_mem _ h2)) h

variable {F : Type} [Field F] [DecidableEq F]

/-- The entries collected by the nonzero-Z loop: index in range, value the
point's own scaling coordinate, nonzero. -/
theorem mem_nonZeroPairs {v : List (G1Jac F)} {q : Nat × F} :
    q ∈ nonZeroPairs v ↔
      q.1 < v.length ∧ (v.getD q.1 default).Z = q.2 ∧ q.2 ≠ 0 := by
  unfold nonZeroPairs
  rw [List.mem_filterMap]
  constructor
  · rintro ⟨i, hi, hq⟩
    rw [List.mem_range] at hi
    by_cases hz : (v.getD i default).Z = 0
    · rw [if_pos hz] at hq
      exact absurd hq (by simp)
    · rw [if_neg hz] at hq
      obtain rfl : (i, (v.getD i default).Z) = q := Option.some.inj hq
      exact ⟨hi, rfl, hz⟩
  · rintro ⟨hlt, hzq, hnz⟩
    refine ⟨q.1, List.mem_range.mpr hlt, ?_⟩
    rw [if_neg (by rw [hzq]; exact hnz), hzq]

/-- The index column of the nonzero list is a sublist of `range n`, hence
has no duplicates. -/
theorem nonZeroPairs_fst_sublist (v : List (G1Jac F)) :
    ((nonZeroPairs v).map Prod.fst).Sublist (List.range v.length) := by
  unfold nonZeroPairs
  generalize List.range v.length = l
  induction l with
  | nil => simp
  | cons i l ih =>
    rw [List.filterMap_cons]
    by_cases hz : (v.getD i default).Z = 0
    · simp only [hz, if_pos]
      exact List.Sublist.cons i ih
    · simp only [hz, if_neg, if_false]
      exact List.Sublist.cons₂ i ih

theorem nonZeroPairs_fst_nodup (v : List (G1Jac F)) :
    ((nonZeroPairs v).map Prod.fst).Nodup :=
  (nonZeroPairs_fst_sublist v).nodup (List.nodup_range _)

end BatchLemmas

section BatchSweepLemmas

variable {F : Type} [Field F] [DecidableEq F]

theorem accProdsGo_length (a : F) (zs : List F) : (accProdsGo a zs).length = zs.length := by
  induction zs generalizing a with
  | nil => rfl
  | cons z zs ih =>
    unfold accProdsGo
    simp [ih]

theorem accProds_length (zs : List F) : (accProds zs).length = zs.length := by
  cases zs with
  | nil => rfl
  | cons z zs =>
    unfold accProds
    simp [accProdsGo_length]

theorem accProdsGo_getD (zs : List F) :
    ∀ (a : F) (j : Nat), j < zs.length →
      (accProdsGo a zs).getD j 0 = a * (zs.take (j + 1)).prod := by
  induction zs with
  | nil =>
    intro a j hj
    simp at hj
  | cons z zs ih =>
    intro a j hj
    unfold accProdsGo
    match j with
    | 0 => simp
    | j + 1 =>
      rw [List.getD_cons_succ, ih (a * z) j (by simpa using hj)]
      simp [mul_assoc]

theorem accProds_getD (zs : List F) :
    ∀ j < zs.length, (accProds zs).getD j 0 = (zs.take (j + 1)).prod := by
  intro j hj
  cases zs with
  | nil => simp at hj
  | cons z zs =>
    unfold accProds
    match j with
    | 0 => simp
    | j + 1 =>
      rw [List.getD_cons_succ, accProdsGo_getD zs z j (by simpa using hj)]
      simp

theorem backSweep_spec (zs accs : List F)
    (hacc : ∀ j < zs.length, accs.getD j 0 = (zs.take (j + 1)).prod)
    (hnz : ∀ z ∈ zs, z ≠ 0) :
    ∀ t, t ≤ zs.length → ∀ L : List F,
      (backSweep zs accs (((zs.take t).prod)⁻¹, L) (List.range t).reverse).2 =
        ((List.range t).map fun j => (zs.getD j 0)⁻¹) ++ L := by
  intro t
  induction t with
  | zero =>
    intro _ L
    simp [backSweep]
  | succ t ih =>
    intro hle L
    have hlt : t < zs.length := by omega
    have hrev : (List.range (t + 1)).reverse = t :: (List.range t).reverse := by
      rw [List.range_succ, List.reverse_append]
      simp
    rw [hrev]
    unfold backSweep
    rw [List.foldl_cons]
    have htake : (zs.take (t + 1)).prod = (zs.take t).prod * zs.getD t 0 := by
      rw [List.prod_take_succ zs t hlt]
      congr 1
      rw [List.getD_eq_getElem zs 0 hlt]
    have hPt : (zs.take t).prod ≠ 0 :=
      List.prod_ne_zero fun h0 => hnz 0 (List.mem_of_mem_take h0) rfl
    have hzt : zs.getD t 0 ≠ 0 := by
      rw [List.getD_eq_getElem zs 0 hlt]
      exact hnz _ (List.getElem_mem hlt)
    have hinv1 : ((zs.take (t + 1)).prod)⁻¹ * zs.getD t 0 = ((zs.take t).prod)⁻¹ := by
      rw [htake, mul_inv_rev,
        mul_comm ((zs.getD t 0)⁻¹) (((zs.take t).prod)⁻¹)]
      exact inv_mul_cancel_right₀ hzt _
    have hinvZt : (if t = 0 then ((zs.take (t + 1)).prod)⁻¹
        else ((zs.take (t + 1)).prod)⁻¹ * accs.getD (t - 1) 0) = (zs.getD t 0)⁻¹ := by
      by_cases ht0 : t = 0
      · subst ht0
        rw [if_pos rfl, htake]
        simp
      · rw [if_neg ht0, hacc (t - 1) (by omega)]
        have ht1 : t - 1 + 1 = t := by omega
        rw [ht1, htake, mul_inv_rev]
        exact inv_mul_cancel_right₀ hPt _
    rw [hinv1, hinvZt]
    have := ih (by omega) ((zs.getD t 0)⁻¹ :: L)
    unfold backSweep at this
    rw [this, List.range_succ, List.map_append]
    simp

theorem invZList_spec (zs : List F) (hne : zs ≠ []) (hnz : ∀ z ∈ zs, z ≠ 0) :
    invZList zs = (List.range zs.length).map fun j => (zs.getD j 0)⁻¹ := by
  unfold invZList
  dsimp only
  have hpos : 0 < zs.length := List.length_pos.mpr hne
  have hlast : (accProds zs).getD (zs.length - 1) 0 = zs.prod := by
    rw [accProds_getD zs (zs.length - 1) (by omega)]
    have h1 : zs.length - 1 + 1 = zs.length := by omega
    rw [h1, List.take_length]
  rw [hlast]
  have hsp := backSweep_spec zs (accProds zs) (accProds_getD zs) hnz zs.length le_rfl []
  rw [List.take_length] at hsp
  rw [hsp, List.append_nil]

end BatchSweepLemmas

section BatchCharLemmas

theorem getD_map_range {A : Type} (n i : Nat) (f : Nat → A) (d : A) (hi : i < n) :
    ((List.range n).map f).getD i d = f i := by
  rw [List.getD_eq_getElem _ d (by simp [hi]), List.getElem_map, List.getElem_range]

variable {F : Type} [Field F] [DecidableEq F]

theorem batchOutInit_apply (v : List (G1Jac F)) (i : Nat) :
    batchOutInit v i =
      if i < v.length ∧ (v.getD i default).Z = 0 then setInfinity else ⟨0, 0⟩ := by
  unfold batchOutInit
  rw [condUpdFold_apply (List.range v.length) (fun j => (v.getD j default).Z = 0)
    (fun _ => setInfinity) _ i]
  simp [List.mem_range]

theorem nonZeroPairs_getD_mem (v : List (G1Jac F)) (j : Nat)
    (hj : j < (nonZeroPairs v).length) :
    (nonZeroPairs v).getD j (0, 0) ∈ nonZeroPairs v := by
  rw [List.getD_eq_getElem _ _ hj]
  exact List.getElem_mem hj

theorem nonZeroPairs_fst_inj (v : List (G1Jac F)) {j1 j2 : Nat}
    (h1 : j1 < (nonZeroPairs v).length) (h2 : j2 < (nonZeroPairs v).length)
    (heq : ((nonZeroPairs v).getD j1 (0, 0)).1 = ((nonZeroPairs v).getD j2 (0, 0)).1) :
    j1 = j2 := by
  have hnd := nonZeroPairs_fst_nodup v
  have hl1 : j1 < ((nonZeroPairs v).map Prod.fst).length := by simpa using h1
  have hl2 : j2 < ((nonZeroPairs v).map Prod.fst).length := by simpa using h2
  rw [List.getD_eq_getElem _ _ h1, List.getD_eq_getElem _ _ h2] at heq
  refine (@List.Nodup.getElem_inj_iff _ _ hnd _ hl1 _ hl2).mp ?_
  rw [List.getElem_map, List.getElem_map]
  exact heq

/-- Full pointwise characterization of `BatchJacToAffG1Par`: points with
`Z = 0` map to the `(0, 1)` infinity sentinel, all others to
`(X·(1/Z)², Y·(1/Z)³)`. -/
theorem BatchJacToAffG1Par_getD (v : List (G1Jac F)) (workers i : Nat)
    (hi : i < v.length) :
    (BatchJacToAffG1Par v workers).getD i default =
      if (v.getD i default).Z = 0 then (⟨0, 1⟩ : G1Affine F)
      else
        ⟨(v.getD i default).X * ((v.getD i default).Z⁻¹ * (v.getD i default).Z⁻¹),
          (v.getD i default).Y *
            ((v.getD i default).Z⁻¹ * (v.getD i default).Z⁻¹ * (v.getD i default).Z⁻¹)⟩ := by
  unfold BatchJacToAffG1Par
  dsimp only
  rw [if_neg (by omega)]
  by_cases hk : (nonZeroPairs v).length = 0
  · rw [if_pos hk]
    have hz : (v.getD i default).Z = 0 := by
      by_contra hz
      have hmem : (i, (v.getD i default).Z) ∈ nonZeroPairs v :=
        mem_nonZeroPairs.mpr ⟨hi, rfl, hz⟩
      rw [List.length_eq_zero.mp hk] at hmem
      simp at hmem
    rw [getD_map_range _ _ _ _ hi, batchOutInit_apply, if_pos ⟨hi, hz⟩, if_pos hz]
    rfl
  · rw [if_neg hk]
    rw [getD_map_range _ _ _ _ hi]
    unfold batchFinalize
    rw [chunkIdxs_eq_range]
    have hzs_len : ((nonZeroPairs v).map Prod.snd).length = (nonZeroPairs v).length :=
      List.length_map _ _
    have hzs_ne : (nonZeroPairs v).map Prod.snd ≠ [] := by
      intro h
      rw [← List.length_eq_zero, hzs_len] at h
      exact hk h
    have hzs_nz : ∀ z ∈ (nonZeroPairs v).map Prod.snd, z ≠ 0 := by
      intro z hz
      obtain ⟨q, hq, rfl⟩ := List.mem_map.mp hz
      exact (mem_nonZeroPairs.mp hq).2.2
    have hinv := invZList_spec ((nonZeroPairs v).map Prod.snd) hzs_ne hzs_nz
    by_cases hz : (v.getD i default).Z = 0
    · rw [if_pos hz]
      have hnotin : i ∉ (List.range (nonZeroPairs v).length).map
          fun j => ((nonZeroPairs v).getD j (0, 0)).1 := by
        intro hmem
        obtain ⟨j, hj, hfeq⟩ := List.mem_map.mp hmem
        rw [List.mem_range] at hj
        have hq := mem_nonZeroPairs.mp (nonZeroPairs_getD_mem v j hj)
        rw [hfeq] at hq
        exact hq.2.2 (hq.2.1 ▸ hz)
      rw [keyedFold_frame (List.range (nonZeroPairs v).length)
        (fun j => ((nonZeroPairs v).getD j (0, 0)).1) _ _ hnotin,
        batchOutInit_apply, if_pos ⟨hi, hz⟩]
      rfl
    · rw [if_neg hz]
      have hmem : (i, (v.getD i default).Z) ∈ nonZeroPairs v :=
        mem_nonZeroPairs.mpr ⟨hi, rfl, hz⟩
      obtain ⟨j, hj, hjq⟩ := List.mem_iff_getElem.mp hmem
      have hfj : ((nonZeroPairs v).getD j (0, 0)).1 = i := by
        rw [List.getD_eq_getElem _ _ hj, hjq]
      have hzj : ((nonZeroPairs v).getD j (0, 0)).2 = (v.getD i default).Z := by
        rw [List.getD_eq_getElem _ _ hj, hjq]
      have hiz : (invZList ((nonZeroPairs v).map Prod.snd)).getD j 0 =
          (v.getD i default).Z⁻¹ := by
        rw [hinv, hzs_len, getD_map_range _ _ _ _ hj]
        congr 1
        rw [List.getD_eq_getElem _ _ (by omega : j < ((nonZeroPairs v).map Prod.snd).length),
          List.getElem_map]
        rw [List.getD_eq_getElem _ _ hj, hjq] at hzj
        rw [hjq]
      have hhit := keyedFold_hit (List.range (nonZeroPairs v).length)
        (fun j => ((nonZeroPairs v).getD j (0, 0)).1)
        (fun j => (⟨(v.getD ((nonZeroPairs v).getD j (0, 0)).1 default).X *
            ((invZList ((nonZeroPairs v).map Prod.snd)).getD j 0 *
              (invZList ((nonZeroPairs v).map Prod.snd)).getD j 0),
          (v.getD ((nonZeroPairs v).getD j (0, 0)).1 default).Y *
            ((invZList ((nonZeroPairs v).map Prod.snd)).getD j 0 *
              (invZList ((nonZeroPairs v).map Prod.snd)).getD j 0 *
              (invZList ((nonZeroPairs v).map Prod.snd)).getD j 0)⟩ : G1Affine F))
        (batchOutInit v) (List.nodup_range _)
        (fun j1 hj1 j2 hj2 heq => nonZeroPairs_fst_inj v
          (List.mem_range.mp hj1) (List.mem_range.mp hj2) heq)
        (List.mem_range.mpr hj)
      dsimp only at hhit
      rw [hfj, hiz] at hhit
      exact hhit

end BatchCharLemmas

section ClaimC10

variable {F : Type} [Field F] [DecidableEq F]

theorem BatchJacToAffG1Par_length (v : List (G1Jac F)) (workers : Nat) :
    (BatchJacToAffG1Par v workers).length = v.length := by
  unfold BatchJacToAffG1Par
  dsimp only
  by_cases h0 : v.length = 0
  · rw [if_pos h0]
    simp [h0]
  · rw [if_neg h0]
    split <;> simp

/-- C10: `BatchJacToAffG1Par` maps every element with zero scaling coordinate
to exactly the affine pair `(0, 1)` regardless of its other coordinates, and
every element with nonzero `Z` to `(X·(1/Z)², Y·(1/Z)³)`; the output has the
same length as the input. -/
theorem C10_batch_pointwise (v : List (G1Jac F)) (workers : Nat) :
    (BatchJacToAffG1Par v workers).length = v.length ∧
    ∀ i, i < v.length →
      (BatchJacToAffG1Par v workers).getD i default =
        (if (v.getD i default).Z = 0 then (⟨0, 1⟩ : G1Affine F)
         else
           ⟨(v.getD i default).X * ((v.getD i default).Z⁻¹ * (v.getD i default).Z⁻¹),
             (v.getD i default).Y *
               ((v.getD i default).Z⁻¹ * (v.getD i default).Z⁻¹ *
                 (v.getD i default).Z⁻¹)⟩) :=
  ⟨BatchJacToAffG1Par_length v workers, fun i hi => BatchJacToAffG1Par_getD v workers i hi⟩

/-- Witness for C10 on a mixed list: an identity point with scrambled X/Y
coordinates maps to `(0, 1)`, a `Z = 2` point to its rescaled coordinates. -/
theorem C10_batch_pointwise_witness :
    (BatchJacToAffG1Par ([⟨2, 3, 0⟩, ⟨1, 1, 1⟩, ⟨8, 8, 2⟩] : List (G1Jac ℚ)) 2).length = 3 ∧
    (BatchJacToAffG1Par ([⟨2, 3, 0⟩, ⟨1, 1, 1⟩, ⟨8, 8, 2⟩] : List (G1Jac ℚ)) 2).getD 0 default =
      ⟨0, 1⟩ ∧
    (BatchJacToAffG1Par ([⟨2, 3, 0⟩, ⟨1, 1, 1⟩, ⟨8, 8, 2⟩] : List (G1Jac ℚ)) 2).getD 2 default =
      ⟨2, 1⟩ := by
  refine ⟨(C10_batch_pointwise ([⟨2, 3, 0⟩, ⟨1, 1, 1⟩, ⟨8, 8, 2⟩] : List (G1Jac ℚ)) 2).1, ?_, ?_⟩
  · have h := (C10_batch_pointwise ([⟨2, 3, 0⟩, ⟨1, 1, 1⟩, ⟨8, 8, 2⟩] : List (G1Jac ℚ)) 2).2
      0 (by decide)
    rw [h, show (([⟨2, 3, 0⟩, ⟨1, 1, 1⟩, ⟨8, 8, 2⟩] : List (G1Jac ℚ)).getD 0 default) =
      (⟨2, 3, 0⟩ : G1Jac ℚ) from rfl]
    norm_num
  · have h := (C10_batch_pointwise ([⟨2, 3, 0⟩, ⟨1, 1, 1⟩, ⟨8, 8, 2⟩] : List (G1Jac ℚ)) 2).2
      2 (by decide)
    rw [h, show (([⟨2, 3, 0⟩, ⟨1, 1, 1⟩, ⟨8, 8, 2⟩] : List (G1Jac ℚ)).getD 2 default) =
      (⟨8, 8, 2⟩ : G1Jac ℚ) from rfl, if_neg (by norm_num)]
    rw [G1Affine.mk.injEq]
    norm_num

end ClaimC10

section ClaimC1

variable {F : Type} [Field F] [DecidableEq F]

/-- C1: on every projective input — including inputs with interspersed
identity elements — the per-element output strategy of `MatVecHadamardPar`
(pointwise `FromJacobian` over the buffer, any worker count) and the batched
strategy of `MatVecHadamardParBatch` (`BatchJacToAffG1Par`, any worker count)
produce identical affine output. -/
theorem C1_conversion_strategies_equiv (v : List (G1Jac F)) (w1 w2 : Nat) :
    (List.range v.length).map (perPointToAff (fun i => v.getD i default) v.length w1) =
      BatchJacToAffG1Par v w2 := by
  refine List.ext_getElem ?_ ?_
  · simp [BatchJacToAffG1Par_length]
  · intro i h1 h2
    have hi : i < v.length := by simpa using h1
    rw [List.getElem_map, List.getElem_range, perPointToAff_apply _ _ _ _ hi]
    have hrhs : (BatchJacToAffG1Par v w2)[i] = (BatchJacToAffG1Par v w2).getD i default :=
      (List.getD_eq_getElem _ _ h2).symm
    rw [hrhs, BatchJacToAffG1Par_getD v w2 i hi]
    unfold fromJacobian setInfinity
    split <;> rfl

end ClaimC1

section ClaimC6

variable {F : Type} [Field F] [DecidableEq F]

theorem snd_filterMap_aux (Zf : Nat → F) (l : List Nat) :
    ((l.filterMap fun i => if Zf i = 0 then none else some (i, Zf i)).map Prod.snd) =
      (l.map Zf).filter fun z => z ≠ 0 := by
  induction l with
  | nil => rfl
  | cons i l ih =>
    rw [List.filterMap_cons, List.map_cons, List.filter_cons]
    by_cases hz : Zf i = 0
    · rw [if_pos hz]
      simp only [hz]
      rw [ih]
      simp
    · rw [if_neg hz]
      simp only [List.map_cons, ih]
      rw [if_pos (by simpa using hz)]

/-- C6: the batched conversion performs no inversion when every point has
`Z = 0`, and otherwise exactly one inversion, whose argument is the product
of precisely the nonzero scaling coordinates (the zero ones are excluded from
the product chain), which is nonzero — so inversion of zero is never
invoked. -/
theorem C6_single_nonzero_inversion (v : List (G1Jac F)) :
    ((nonZeroPairs v).length = 0 ↔ ∀ i < v.length, (v.getD i default).Z = 0) ∧
    ((nonZeroPairs v).map Prod.snd =
      ((List.range v.length).map fun i => (v.getD i default).Z).filter fun z => z ≠ 0) ∧
    ((nonZeroPairs v).length = 0 → batchInversionArgs v = []) ∧
    ((nonZeroPairs v).length ≠ 0 →
      batchInversionArgs v = [((nonZeroPairs v).map Prod.snd).prod] ∧
      ((nonZeroPairs v).map Prod.snd).prod ≠ 0) ∧
    ∀ x ∈ batchInversionArgs v, x ≠ 0 := by
  have hzs_nz : ∀ z ∈ (nonZeroPairs v).map Prod.snd, z ≠ 0 := by
    intro z hz
    obtain ⟨q, hq, rfl⟩ := List.mem_map.mp hz
    exact (mem_nonZeroPairs.mp hq).2.2
  have hiff : (nonZeroPairs v).length = 0 ↔ ∀ i < v.length, (v.getD i default).Z = 0 := by
    constructor
    · intro hk i hi
      by_contra hz
      have hmem : (i, (v.getD i default).Z) ∈ nonZeroPairs v :=
        mem_nonZeroPairs.mpr ⟨hi, rfl, hz⟩
      rw [List.length_eq_zero.mp hk] at hmem
      simp at hmem
    · intro hall
      rw [List.length_eq_zero]
      by_contra hne
      obtain ⟨q, hq⟩ := List.exists_mem_of_ne_nil _ hne
      obtain ⟨hlt, hzq, hnz0⟩ := mem_nonZeroPairs.mp hq
      exact hnz0 (hzq ▸ hall q.1 hlt)
  have hlen : ((nonZeroPairs v).map Prod.snd).length = (nonZeroPairs v).length :=
    List.length_map _ _
  have hargs : (nonZeroPairs v).length ≠ 0 →
      batchInversionArgs v = [((nonZeroPairs v).map Prod.snd).prod] := by
    intro hk
    unfold batchInversionArgs
    dsimp only
    rw [if_neg (by omega)]
    rw [accProds_getD _ (((nonZeroPairs v).map Prod.snd).length - 1) (by omega)]
    have h1 : ((nonZeroPairs v).map Prod.snd).length - 1 + 1 =
        ((nonZeroPairs v).map Prod.snd).length := by omega
    rw [h1, List.take_length]
  have hprodnz : (nonZeroPairs v).length ≠ 0 →
      ((nonZeroPairs v).map Prod.snd).prod ≠ 0 := fun _ =>
    List.prod_ne_zero fun h0 => hzs_nz 0 h0 rfl
  refine ⟨hiff, ?_, ?_, fun hk => ⟨hargs hk, hprodnz hk⟩, ?_⟩
  · unfold nonZeroPairs
    exact snd_filterMap_aux (fun i => (v.getD i default).Z) (List.range v.length)
  · intro hk
    unfold batchInversionArgs
    dsimp only
    rw [if_pos (by omega)]
  · intro x hx
    by_cases hk : (nonZeroPairs v).length = 0
    · have : batchInversionArgs v = [] := by
        unfold batchInversionArgs
        dsimp only
        rw [if_pos (by omega)]
      rw [this] at hx
      simp at hx
    · rw [hargs hk] at hx
      rw [List.mem_singleton.mp hx]
      exact hprodnz hk

/-- Witness for C6 on a list with one identity and two nonzero-Z points. -/
theorem C6_single_nonzero_inversion_witness :
    (nonZeroPairs ([⟨5, 6, 0⟩, ⟨1, 1, 3⟩, ⟨2, 2, 4⟩] : List (G1Jac ℚ))).length ≠ 0 ∧
    batchInversionArgs ([⟨5, 6, 0⟩, ⟨1, 1, 3⟩, ⟨2, 2, 4⟩] : List (G1Jac ℚ)) = [12] ∧
    (12 : ℚ) ≠ 0 := by
  have h := (C6_single_nonzero_inversion
    ([⟨5, 6, 0⟩, ⟨1, 1, 3⟩, ⟨2, 2, 4⟩] : List (G1Jac ℚ))).2.2.2.1 (by decide)
  refine ⟨by decide, ?_, by norm_num⟩
  rw [h.1]
  have hzs : ((nonZeroPairs ([⟨5, 6, 0⟩, ⟨1, 1, 3⟩, ⟨2, 2, 4⟩] : List (G1Jac ℚ))).map
      Prod.snd) = [3, 4] := rfl
  rw [hzs]
  norm_num [List.prod_cons, List.prod_nil]

end ClaimC6

section ClaimC3

variable {F : Type} [Field F] [DecidableEq F]

/-- C3: for every power-of-two input and every worker count, both parallel
implementations (`MatVecHadamardPar` and `MatVecHadamardParBatch`) and the
single-threaded reference `MatVecHadamardSerialInPlace` produce identical
output — in particular the output does not depend on `workers` (the
right-hand sides have none). -/
theorem C3_serial_parallel_equiv (add : G1Jac F → G1Jac F → G1Jac F)
    (neg : G1Jac F → G1Jac F) (xs : List (G1Affine F)) (m workers : Nat)
    (hm : xs.length = 2 ^ m) :
    MatVecHadamardPar add neg xs workers = MatVecHadamardSerialInPlace add neg xs ∧
    MatVecHadamardParBatch add neg xs workers = MatVecHadamardSerialInPlace add neg xs := by
  have hagree : ∀ j, j < 2 ^ m →
      runStagesPar add neg (2 ^ m) (max 1 workers) (toJacBuf xs (max 1 workers)) j =
        runStagesSerial add neg (2 ^ m) (fun i => fromAffine (xs.getD i default)) j := by
    intro j hj
    rw [runStagesPar_eq_fold, runStagesSerial_eq_fold]
    exact stagesFold_agree add neg m m le_rfl
      (fun j2 hj2 => toJacBuf_apply xs (max 1 workers) j2 (by omega)) j hj
  constructor
  · rw [MatVecHadamardPar_valid add neg xs m workers hm,
      MatVecHadamardSerialInPlace_valid add neg xs m hm]
    congr 1
    refine List.map_congr_left fun i hi => ?_
    rw [List.mem_range] at hi
    rw [perPointToAff_apply _ _ _ _ hi]
    rw [hagree i hi]
  · rw [MatVecHadamardParBatch_valid add neg xs m workers hm,
      MatVecHadamardSerialInPlace_valid add neg xs m hm]
    congr 1
    refine List.ext_getElem ?_ ?_
    · rw [BatchJacToAffG1Par_length]
      simp
    · intro i h1 h2
      have hi : i < 2 ^ m := by
        rw [BatchJacToAffG1Par_length] at h1
        simpa using h1
      rw [← List.getD_eq_getElem _ default h1,
        BatchJacToAffG1Par_getD _ _ i (by simpa using hi), getD_map_range _ _ _ _ hi,
        hagree i hi, List.getElem_map, List.getElem_range]
      unfold fromJacobian setInfinity
      split <;> rfl

/-- Witness for C3 at `N = 2`, `workers = 4`. -/
theorem C3_serial_parallel_equiv_witness :
    (List.replicate 2 (⟨0, 1⟩ : G1Affine ℚ)).length = 2 ^ 1 ∧
    MatVecHadamardPar (fun a _ => a) id (List.replicate 2 (⟨0, 1⟩ : G1Affine ℚ)) 4 =
      MatVecHadamardSerialInPlace (fun a _ => a) id (List.replicate 2 (⟨0, 1⟩ : G1Affine ℚ)) :=
  ⟨rfl, (C3_serial_parallel_equiv (fun a _ => a) id
    (List.replicate 2 (⟨0, 1⟩ : G1Affine ℚ)) 1 4 rfl).1⟩

end ClaimC3

section ClaimC7

variable {J : Type}

theorem stagePointwise_const (add : J → J → J) (neg : J → J) (c : J)
    (hadd : add c c = c) (hneg : neg c = c) (n s : Nat) :
    stagePointwise add neg n s (fun _ => c) = fun _ => c := by
  funext i
  unfold stagePointwise
  split
  · split
    · rw [hadd]
    · rw [hneg, hadd]
  · rfl

theorem stagesFold_const (add : J → J → J) (neg : J → J) (c : J)
    (hadd : add c c = c) (hneg : neg c = c) (m : Nat) :
    ∀ t : Nat, (List.range t).foldl
        (fun v r => stagePointwise add neg (2 ^ m) (2 ^ r) v) (fun _ => c) =
      fun _ => c := by
  intro t
  induction t with
  | zero => rfl
  | succ t ih =>
    rw [List.range_succ, List.foldl_append, ih]
    simp only [List.foldl_cons, List.foldl_nil]
    exact stagePointwise_const add neg c hadd hneg _ _

variable {F : Type} [Field F] [DecidableEq F]

theorem fromAffine_setInfinity : fromAffine (setInfinity : G1Affine F) = ⟨1, 1, 0⟩ := by
  unfold fromAffine
  rw [if_pos rfl]

theorem replicate_getD_lt {A : Type} (n i : Nat) (a d : A) (hi : i < n) :
    (List.replicate n a).getD i d = a := by
  rw [List.getD_eq_getElem _ d (by simpa using hi), List.getElem_replicate]

/-- The stage cascade maps an all-identity buffer to an all-identity buffer
below `n`, provided the provider's add/negate fix the identity. -/
theorem stagesFold_identity (add : G1Jac F → G1Jac F → G1Jac F) (neg : G1Jac F → G1Jac F)
    (hadd : add ⟨1, 1, 0⟩ ⟨1, 1, 0⟩ = ⟨1, 1, 0⟩) (hneg : neg ⟨1, 1, 0⟩ = ⟨1, 1, 0⟩)
    (m : Nat) {u : Nat → G1Jac F} (hu : ∀ i < 2 ^ m, u i = ⟨1, 1, 0⟩) :
    ∀ i < 2 ^ m, (List.range m).foldl
        (fun v r => stagePointwise add neg (2 ^ m) (2 ^ r) v) u i = ⟨1, 1, 0⟩ := by
  intro i hi
  have hagree := stagesFold_agree add neg m m le_rfl
    (v := fun _ => (⟨1, 1, 0⟩ : G1Jac F)) hu i hi
  rw [hagree, stagesFold_const add neg _ hadd hneg m m]

/-- C7: an all-identity input of any valid power-of-two length transforms to
an all-identity output under every public transform variant, assuming only
the group contract for the identity (`∞ ⊕ ∞ = ∞`, `⊖∞ = ∞`). -/
theorem C7_all_identity (add : G1Jac F → G1Jac F → G1Jac F) (neg : G1Jac F → G1Jac F)
    (hadd : add ⟨1, 1, 0⟩ ⟨1, 1, 0⟩ = ⟨1, 1, 0⟩) (hneg : neg ⟨1, 1, 0⟩ = ⟨1, 1, 0⟩)
    (m workers : Nat) :
    MatVecHadamardPar add neg (List.replicate (2 ^ m) setInfinity) workers =
      .ok (List.replicate (2 ^ m) setInfinity) ∧
    MatVecHadamardParBatch add neg (List.replicate (2 ^ m) setInfinity) workers =
      .ok (List.replicate (2 ^ m) setInfinity) ∧
    Except.map Prod.fst
        (MatVecHadamardParBatchProfile add neg (List.replicate (2 ^ m) setInfinity) workers) =
      .ok (List.replicate (2 ^ m) setInfinity) ∧
    Except.map Prod.fst
        (MatVecHadamardParProfile add neg (List.replicate (2 ^ m) setInfinity) workers) =
      .ok (List.replicate (2 ^ m) setInfinity) ∧
    MatVecHadamardSerialInPlace add neg (List.replicate (2 ^ m) setInfinity) =
      .ok (List.replicate (2 ^ m) setInfinity) := by
  have hm : (List.replicate (2 ^ m) (setInfinity : G1Affine F)).length = 2 ^ m :=
    List.length_replicate _ _
  have hw : 0 < max 1 workers := by omega
  -- the initial Jacobian buffer is identity below n, for both conversion loops
  have hbufPar : ∀ i < 2 ^ m,
      toJacBuf (List.replicate (2 ^ m) (setInfinity : G1Affine F)) (max 1 workers) i =
        ⟨1, 1, 0⟩ := by
    intro i hi
    rw [toJacBuf_apply _ _ _ (by omega), replicate_getD_lt _ _ _ _ hi, fromAffine_setInfinity]
  have hbufSer : ∀ i < 2 ^ m,
      fromAffine ((List.replicate (2 ^ m) (setInfinity : G1Affine F)).getD i default) =
        (⟨1, 1, 0⟩ : G1Jac F) := by
    intro i hi
    rw [replicate_getD_lt _ _ _ _ hi, fromAffine_setInfinity]
  -- the stage output buffers are identity below n
  have hjacPar : ∀ i < 2 ^ m,
      runStagesPar add neg (2 ^ m) (max 1 workers)
        (toJacBuf (List.replicate (2 ^ m) setInfinity) (max 1 workers)) i = ⟨1, 1, 0⟩ := by
    intro i hi
    rw [runStagesPar_eq_fold]
    exact stagesFold_identity add neg hadd hneg m hbufPar i hi
  have hjacTiled : ∀ i < 2 ^ m,
      runStagesTiled add neg (2 ^ m) (max 1 workers)
        (toJacBuf (List.replicate (2 ^ m) setInfinity) (max 1 workers)) i = ⟨1, 1, 0⟩ := by
    intro i hi
    rw [runStagesTiled_eq_fold add neg m _ hw]
    exact stagesFold_identity add neg hadd hneg m hbufPar i hi
  have hjacSer : ∀ i < 2 ^ m,
      runStagesSerial add neg (2 ^ m)
        (fun i => fromAffine ((List.replicate (2 ^ m) setInfinity).getD i default)) i =
        ⟨1, 1, 0⟩ := by
    intro i hi
    rw [runStagesSerial_eq_fold]
    exact stagesFold_identity add neg hadd hneg m hbufSer i hi
  -- per-point output of an identity buffer is the sentinel
  have houtPer : ∀ jac : Nat → G1Jac F, (∀ i < 2 ^ m, jac i = ⟨1, 1, 0⟩) →
      (List.range (2 ^ m)).map (perPointToAff jac (2 ^ m) (max 1 workers)) =
        List.replicate (2 ^ m) setInfinity := by
    intro jac hjac
    have hc : ∀ i ∈ List.range (2 ^ m),
        perPointToAff jac (2 ^ m) (max 1 workers) i = setInfinity := by
      intro i hi
      rw [List.mem_range] at hi
      rw [perPointToAff_apply _ _ _ _ hi, hjac i hi]
      unfold fromJacobian
      rw [if_pos rfl]
    rw [List.map_congr_left hc, List.map_const']
    simp
  -- batch output of an identity buffer is the sentinel list
  have houtBatch : ∀ jac : Nat → G1Jac F, (∀ i < 2 ^ m, jac i = ⟨1, 1, 0⟩) →
      BatchJacToAffG1Par ((List.range (2 ^ m)).map jac) (max 1 workers) =
        List.replicate (2 ^ m) setInfinity := by
    intro jac hjac
    have hjl : ((List.range (2 ^ m)).map jac) = List.replicate (2 ^ m) (⟨1, 1, 0⟩ : G1Jac F) := by
      have hc : ∀ i ∈ List.range (2 ^ m), jac i = ⟨1, 1, 0⟩ := fun i hi =>
        hjac i (List.mem_range.mp hi)
      rw [List.map_congr_left hc, List.map_const']
      simp
    rw [hjl]
    refine List.ext_getElem ?_ ?_
    · rw [BatchJacToAffG1Par_length]
      simp
    · intro i h1 h2
      have hi : i < 2 ^ m := by
        rw [BatchJacToAffG1Par_length] at h1
        simpa using h1
      rw [← List.getD_eq_getElem _ default h1,
        BatchJacToAffG1Par_getD _ _ i (by simpa using hi)]
      rw [replicate_getD_lt _ _ _ _ hi]
      rw [if_pos rfl, List.getElem_replicate]
      rfl
  refine ⟨?_, ?_, ?_, ?_, ?_⟩
  · rw [MatVecHadamardPar_valid add neg _ m workers hm]
    rw [houtPer _ hjacPar]
  · rw [MatVecHadamardParBatch_valid add neg _ m workers hm]
    rw [houtBatch _ hjacPar]
  · rw [MatVecHadamardParBatchProfile_valid add neg _ m workers hm]
    simp only [Except.map]
    rw [houtBatch _ hjacTiled]
  · rw [MatVecHadamardParProfile_valid add neg _ m workers hm]
    simp only [Except.map]
    rw [houtPer _ hjacTiled]
  · rw [MatVecHadamardSerialInPlace_valid add neg _ m hm]
    have hc : ∀ i ∈ List.range (2 ^ m),
        fromJacobian (runStagesSerial add neg (2 ^ m)
          (fun i => fromAffine ((List.replicate (2 ^ m) setInfinity).getD i default)) i) =
          (setInfinity : G1Affine F) := by
      intro i hi
      rw [List.mem_range] at hi
      rw [hjacSer i hi]
      unfold fromJacobian
      rw [if_pos rfl]
    rw [List.map_congr_left hc, List.map_const']
    simp

/-- Witness for C7 at `N = 4`, `workers = 3` over the rationals. -/
theorem C7_all_identity_witness :
    ((fun (a : G1Jac ℚ) (_ : G1Jac ℚ) => a) ⟨1, 1, 0⟩ ⟨1, 1, 0⟩ = ⟨1, 1, 0⟩) ∧
    (id (⟨1, 1, 0⟩ : G1Jac ℚ) = ⟨1, 1, 0⟩) ∧
    MatVecHadamardPar (fun a _ => a) id
        (List.replicate (2 ^ 2) (setInfinity : G1Affine ℚ)) 3 =
      .ok (List.replicate (2 ^ 2) setInfinity) :=
  ⟨rfl, rfl, (C7_all_identity (fun a _ => a) id rfl rfl 2 3).1⟩

end ClaimC7

section HalfSplitLemmas

variable {J : Type} (add : J → J → J) (neg : J → J)

/-- Stages of distance `< 2^m` act on the lower half of a `2^(m+1)` buffer
exactly as on a `2^m` buffer. -/
theorem stagePointwise_lower {m r : Nat} (hr : r < m) (v : Nat → J) {i : Nat}
    (hi : i < 2 ^ m) :
    stagePointwise add neg (2 ^ (m + 1)) (2 ^ r) v i =
      stagePointwise add neg (2 ^ m) (2 ^ r) v i := by
  have hi2 : i < 2 ^ (m + 1) := lt_of_lt_of_le hi (Nat.pow_le_pow_right (by omega) (by omega))
  unfold stagePointwise
  rw [if_pos hi2, if_pos hi]

/-- Stages of distance `< 2^m` act on the upper half of a `2^(m+1)` buffer as
on the shifted lower half. -/
theorem stagePointwise_upper {m r : Nat} (hr : r < m) (v : Nat → J) {i : Nat}
    (hi : i < 2 ^ m) :
    stagePointwise add neg (2 ^ (m + 1)) (2 ^ r) v (i + 2 ^ m) =
      stagePointwise add neg (2 ^ m) (2 ^ r) (fun j => v (j + 2 ^ m)) i := by
  have hi2 : i + 2 ^ m < 2 ^ (m + 1) := by
    have : 2 ^ (m + 1) = 2 ^ m + 2 ^ m := by
      rw [pow_succ]
      ring
    omega
  have hdvd : 2 ^ (r + 1) ∣ 2 ^ m := pow_dvd_pow 2 (by omega)
  have hps : 2 * 2 ^ r = 2 ^ (r + 1) := by
    rw [pow_succ]
    ring
  have hmod : (i + 2 ^ m) % (2 * 2 ^ r) = i % (2 * 2 ^ r) := by
    obtain ⟨c, hc⟩ := hdvd
    rw [hps, hc, Nat.add_mul_mod_self_left]
  unfold stagePointwise
  rw [if_pos hi2, if_pos hi, hmod]
  by_cases hlow : i % (2 * 2 ^ r) < 2 ^ r
  · rw [if_pos hlow, if_pos hlow]
    have harith : i + 2 ^ m + 2 ^ r = i + 2 ^ r + 2 ^ m := by omega
    rw [harith]
  · rw [if_neg hlow, if_neg hlow]
    have hge : 2 ^ r ≤ i := by
      have h1 := Nat.mod_le i (2 * 2 ^ r)
      omega
    have harith : i + 2 ^ m - 2 ^ r = i - 2 ^ r + 2 ^ m := by omega
    rw [harith]

/-- The final stage of a `2^(m+1)` transform halves: sums land in the lower
half, differences in the upper half. -/
theorem stagePointwise_last (m : Nat) (x : Nat → J) {i : Nat} (hi : i < 2 ^ m) :
    stagePointwise add neg (2 ^ (m + 1)) (2 ^ m) x i = add (x i) (x (i + 2 ^ m)) ∧
    stagePointwise add neg (2 ^ (m + 1)) (2 ^ m) x (i + 2 ^ m) =
      add (x i) (neg (x (i + 2 ^ m))) := by
  have hsplit : 2 ^ (m + 1) = 2 ^ m + 2 ^ m := by
    rw [pow_succ]
    ring
  have hi1 : i < 2 ^ (m + 1) := by omega
  have hi2 : i + 2 ^ m < 2 ^ (m + 1) := by omega
  have hm1 : i % (2 * 2 ^ m) = i := Nat.mod_eq_of_lt (by omega)
  have hm2 : (i + 2 ^ m) % (2 * 2 ^ m) = i + 2 ^ m := Nat.mod_eq_of_lt (by omega)
  constructor
  · unfold stagePointwise
    rw [if_pos hi1, hm1, if_pos hi]
  · unfold stagePointwise
    rw [if_pos hi2, hm2, if_neg (by omega)]
    have harith : i + 2 ^ m - 2 ^ m = i := by omega
    rw [harith]

/-- Lower-half evaluation of the first `t` stages of a `2^(m+1)` cascade. -/
theorem stagesFold_lower (m : Nat) :
    ∀ t, t ≤ m → ∀ (v : Nat → J) (i : Nat), i < 2 ^ m →
      (List.range t).foldl (fun v r => stagePointwise add neg (2 ^ (m + 1)) (2 ^ r) v) v i =
        (List.range t).foldl (fun v r => stagePointwise add neg (2 ^ m) (2 ^ r) v) v i := by
  intro t
  induction t with
  | zero =>
    intro _ v i _
    rfl
  | succ t ih =>
    intro ht v i hi
    rw [List.range_succ, List.foldl_append, List.foldl_append]
    simp only [List.foldl_cons, List.foldl_nil]
    rw [stagePointwise_lower add neg (by omega) _ hi]
    exact stagePointwise_agree add neg (pow_dvd_of_lt_pow (by omega))
      (fun j hj => ih (by omega) v j hj) i hi

/-- Upper-half evaluation of the first `t` stages of a `2^(m+1)` cascade:
equal to the `2^m` cascade on the shifted buffer. -/
theorem stagesFold_upper (m : Nat) :
    ∀ t, t ≤ m → ∀ (v : Nat → J) (i : Nat), i < 2 ^ m →
      (List.range t).foldl (fun v r => stagePointwise add neg (2 ^ (m + 1)) (2 ^ r) v) v
          (i + 2 ^ m) =
        (List.range t).foldl (fun v r => stagePointwise add neg (2 ^ m) (2 ^ r) v)
          (fun j => v (j + 2 ^ m)) i := by
  intro t
  induction t with
  | zero =>
    intro _ v i _
    rfl
  | succ t ih =>
    intro ht v i hi
    rw [List.range_succ, List.foldl_append, List.foldl_append]
    simp only [List.foldl_cons, List.foldl_nil]
    rw [stagePointwise_upper add neg (by omega) _ hi]
    exact stagePointwise_agree add neg (pow_dvd_of_lt_pow (by omega))
      (fun j hj => ih (by omega) v j hj) i hi

end HalfSplitLemmas

section GroupStageLemmas

variable {G : Type} [AddCommGroup G]

theorem stagePointwise_add_map (n s : Nat) (u v : Nat → G) :
    stagePointwise (· + ·) (fun x => -x) n s (fun i => u i + v i) = fun i =>
      stagePointwise (· + ·) (fun x => -x) n s u i +
        stagePointwise (· + ·) (fun x => -x) n s v i := by
  funext i
  unfold stagePointwise
  by_cases hin : i < n
  · rw [if_pos hin, if_pos hin, if_pos hin]
    by_cases hlow : i % (2 * s) < s
    · rw [if_pos hlow, if_pos hlow, if_pos hlow]
      abel
    · rw [if_neg hlow, if_neg hlow, if_neg hlow]
      abel
  · rw [if_neg hin, if_neg hin, if_neg hin]

theorem stagePointwise_neg_map (n s : Nat) (u : Nat → G) :
    stagePointwise (· + ·) (fun x => -x) n s (fun i => -u i) = fun i =>
      -stagePointwise (· + ·) (fun x => -x) n s u i := by
  funext i
  unfold stagePointwise
  by_cases hin : i < n
  · rw [if_pos hin, if_pos hin]
    by_cases hlow : i % (2 * s) < s
    · rw [if_pos hlow, if_pos hlow]
      abel
    · rw [if_neg hlow, if_neg hlow]
      abel
  · rw [if_neg hin, if_neg hin]

theorem stagesFold_add_map (n : Nat) :
    ∀ (t : Nat) (u v : Nat → G),
      (List.range t).foldl (fun v r => stagePointwise (· + ·) (fun x => -x) n (2 ^ r) v)
          (fun i => u i + v i) = fun i =>
        (List.range t).foldl (fun v r => stagePointwise (· + ·) (fun x => -x) n (2 ^ r) v) u i +
          (List.range t).foldl (fun v r => stagePointwise (· + ·) (fun x => -x) n (2 ^ r) v) v i := by
  intro t
  induction t with
  | zero =>
    intro u v
    rfl
  | succ t ih =>
    intro u v
    rw [List.range_succ, List.foldl_append, List.foldl_append, List.foldl_append]
    simp only [List.foldl_cons, List.foldl_nil]
    rw [ih u v, stagePointwise_add_map]

theorem stagesFold_neg_map (n : Nat) :
    ∀ (t : Nat) (u : Nat → G),
      (List.range t).foldl (fun v r => stagePointwise (· + ·) (fun x => -x) n (2 ^ r) v)
          (fun i => -u i) = fun i =>
        -(List.range t).foldl (fun v r => stagePointwise (· + ·) (fun x => -x) n (2 ^ r) v) u i := by
  intro t
  induction t with
  | zero =>
    intro u
    rfl
  | succ t ih =>
    intro u
    rw [List.range_succ, List.foldl_append, List.foldl_append]
    simp only [List.foldl_cons, List.foldl_nil]
    rw [ih u, stagePointwise_neg_map]

end GroupStageLemmas

section ClaimC2Core

variable {G : Type} [AddCommGroup G]

theorem two_pow_succ_nsmul (m : Nat) (x : G) :
    (2 ^ (m + 1)) • x = 2 ^ m • x + 2 ^ m • x := by
  have h : 2 ^ (m + 1) = 2 ^ m + 2 ^ m := by
    rw [pow_succ]
    ring
  rw [h, add_nsmul]

/-- Applying the stage cascade twice scales every in-range entry by `2^m`:
the heart of the involution property `H(H(x)) = N·x`. -/
theorem doubleCascade_smul :
    ∀ (m : Nat) (v : Nat → G) (i : Nat), i < 2 ^ m →
      (List.range m).foldl (fun v r => stagePointwise (· + ·) (fun x => -x) (2 ^ m) (2 ^ r) v)
        ((List.range m).foldl (fun v r => stagePointwise (· + ·) (fun x => -x) (2 ^ m) (2 ^ r) v)
          v) i = (2 ^ m) • v i := by
  intro m
  induction m with
  | zero =>
    intro v i hi
    simp only [List.range_zero, List.foldl_nil, pow_zero, one_nsmul]
  | succ m ih =>
    intro v i hi
    have hsplit : 2 ^ (m + 1) = 2 ^ m + 2 ^ m := by
      rw [pow_succ]
      ring
    -- one-step unrolling of the (m+1)-stage cascade from the top
    have hfold : ∀ u : Nat → G,
        (List.range (m + 1)).foldl
            (fun v r => stagePointwise (· + ·) (fun x => -x) (2 ^ (m + 1)) (2 ^ r) v) u =
          stagePointwise (· + ·) (fun x => -x) (2 ^ (m + 1)) (2 ^ m)
            ((List.range m).foldl
              (fun v r => stagePointwise (· + ·) (fun x => -x) (2 ^ (m + 1)) (2 ^ r) v) u) := by
      intro u
      rw [List.range_succ, List.foldl_append]
      simp only [List.foldl_cons, List.foldl_nil]
    rw [hfold, hfold]
    -- the inner transform y and its two halves
    have hylo : ∀ j, j < 2 ^ m →
        stagePointwise (· + ·) (fun x => -x) (2 ^ (m + 1)) (2 ^ m)
          ((List.range m).foldl
            (fun v r => stagePointwise (· + ·) (fun x => -x) (2 ^ (m + 1)) (2 ^ r) v) v) j =
        (List.range m).foldl
            (fun v r => stagePointwise (· + ·) (fun x => -x) (2 ^ m) (2 ^ r) v) v j +
          (List.range m).foldl
            (fun v r => stagePointwise (· + ·) (fun x => -x) (2 ^ m) (2 ^ r) v)
            (fun j => v (j + 2 ^ m)) j := by
      intro j hj
      rw [(stagePointwise_last (· + ·) (fun x => -x) m _ hj).1,
        stagesFold_lower (· + ·) (fun x => -x) m m le_rfl v j hj,
        stagesFold_upper (· + ·) (fun x => -x) m m le_rfl v j hj]
    have hyhi : ∀ j, j < 2 ^ m →
        stagePointwise (· + ·) (fun x => -x) (2 ^ (m + 1)) (2 ^ m)
          ((List.range m).foldl
            (fun v r => stagePointwise (· + ·) (fun x => -x) (2 ^ (m + 1)) (2 ^ r) v) v)
          (j + 2 ^ m) =
        (List.range m).foldl
            (fun v r => stagePointwise (· + ·) (fun x => -x) (2 ^ m) (2 ^ r) v) v j +
          -(List.range m).foldl
            (fun v r => stagePointwise (· + ·) (fun x => -x) (2 ^ m) (2 ^ r) v)
            (fun j => v (j + 2 ^ m)) j := by
      intro j hj
      rw [(stagePointwise_last (· + ·) (fun x => -x) m _ hj).2,
        stagesFold_lower (· + ·) (fun x => -x) m m le_rfl v j hj,
        stagesFold_upper (· + ·) (fun x => -x) m m le_rfl v j hj]
    -- the outer cascade applied to y, evaluated on each half
    have hFy_lo : ∀ j, j < 2 ^ m →
        (List.range m).foldl
            (fun v r => stagePointwise (· + ·) (fun x => -x) (2 ^ (m + 1)) (2 ^ r) v)
            (stagePointwise (· + ·) (fun x => -x) (2 ^ (m + 1)) (2 ^ m)
              ((List.range m).foldl
                (fun v r => stagePointwise (· + ·) (fun x => -x) (2 ^ (m + 1)) (2 ^ r) v) v))
            j =
          2 ^ m • v j + 2 ^ m • v (j + 2 ^ m) := by
      intro j hj
      rw [stagesFold_lower (· + ·) (fun x => -x) m m le_rfl _ j hj]
      have hagree := stagesFold_agree (· + ·) (fun x => -x) m m le_rfl
        (u := stagePointwise (· + ·) (fun x => -x) (2 ^ (m + 1)) (2 ^ m)
          ((List.range m).foldl
            (fun v r => stagePointwise (· + ·) (fun x => -x) (2 ^ (m + 1)) (2 ^ r) v) v))
        (v := fun j =>
          (List.range m).foldl
              (fun v r => stagePointwise (· + ·) (fun x => -x) (2 ^ m) (2 ^ r) v) v j +
            (List.range m).foldl
              (fun v r => stagePointwise (· + ·) (fun x => -x) (2 ^ m) (2 ^ r) v)
              (fun j => v (j + 2 ^ m)) j)
        (fun j hj => hylo j hj) j hj
      rw [hagree, stagesFold_add_map (2 ^ m) m]
      dsimp only
      rw [ih v j hj, ih (fun j => v (j + 2 ^ m)) j hj]
    have hFy_hi : ∀ j, j < 2 ^ m →
        (List.range m).foldl
            (fun v r => stagePointwise (· + ·) (fun x => -x) (2 ^ (m + 1)) (2 ^ r) v)
            (stagePointwise (· + ·) (fun x => -x) (2 ^ (m + 1)) (2 ^ m)
              ((List.range m).foldl
                (fun v r => stagePointwise (· + ·) (fun x => -x) (2 ^ (m + 1)) (2 ^ r) v) v))
            (j + 2 ^ m) =
          2 ^ m • v j + -(2 ^ m • v (j + 2 ^ m)) := by
      intro j hj
      rw [stagesFold_upper (· + ·) (fun x => -x) m m le_rfl _ j hj]
      have hagree := stagesFold_agree (· + ·) (fun x => -x) m m le_rfl
        (u := fun j' =>
          stagePointwise (· + ·) (fun x => -x) (2 ^ (m + 1)) (2 ^ m)
            ((List.range m).foldl
              (fun v r => stagePointwise (· + ·) (fun x => -x) (2 ^ (m + 1)) (2 ^ r) v) v)
            (j' + 2 ^ m))
        (v := fun j =>
          (List.range m).foldl
              (fun v r => stagePointwise (· + ·) (fun x => -x) (2 ^ m) (2 ^ r) v) v j +
            -(List.range m).foldl
              (fun v r => stagePointwise (· + ·) (fun x => -x) (2 ^ m) (2 ^ r) v)
              (fun j => v (j + 2 ^ m)) j)
        (fun j hj => hyhi j hj) j hj
      rw [hagree]
      have hmix : (fun j =>
          (List.range m).foldl
              (fun v r => stagePointwise (· + ·) (fun x => -x) (2 ^ m) (2 ^ r) v) v j +
            -(List.range m).foldl
              (fun v r => stagePointwise (· + ·) (fun x => -x) (2 ^ m) (2 ^ r) v)
              (fun j => v (j + 2 ^ m)) j) = fun j =>
          (List.range m).foldl
              (fun v r => stagePointwise (· + ·) (fun x => -x) (2 ^ m) (2 ^ r) v) v j +
            (List.range m).foldl
              (fun v r => stagePointwise (· + ·) (fun x => -x) (2 ^ m) (2 ^ r) v)
              (fun j => -v (j + 2 ^ m)) j := by
        funext j
        rw [stagesFold_neg_map (2 ^ m) m]
      rw [hmix, stagesFold_add_map (2 ^ m) m]
      dsimp only
      rw [ih v j hj]
      have hneg2 := ih (fun j' => -v (j' + 2 ^ m)) j hj
      rw [hneg2]
      dsimp only
      rw [smul_neg]
    -- assemble, splitting i into the two halves
    rcases Nat.lt_or_ge i (2 ^ m) with hil | hig
    · rw [(stagePointwise_last (· + ·) (fun x => -x) m _ hil).1,
        hFy_lo i hil, hFy_hi i hil]
      rw [two_pow_succ_nsmul]
      abel
    · have hi' : i - 2 ^ m < 2 ^ m := by omega
      have hidx : i = (i - 2 ^ m) + 2 ^ m := by omega
      rw [hidx,
        (stagePointwise_last (· + ·) (fun x => -x) m _ hi').2,
        hFy_lo _ hi', hFy_hi _ hi']
      rw [two_pow_succ_nsmul]
      abel

end ClaimC2Core

section ClaimC2

variable {G : Type} [AddCommGroup G]

theorem MatVecHadamardParGroup_valid (xs : List G) (m workers : Nat)
    (hm : xs.length = 2 ^ m) :
    MatVecHadamardParGroup xs workers = .ok ((List.range (2 ^ m)).map
      (runStagesPar (· + ·) (fun x => -x) (2 ^ m) (max 1 workers) fun i => xs.getD i 0)) := by
  unfold MatVecHadamardParGroup
  rw [hm, if_neg (Nat.two_pow_pos m).ne', if_neg (not_not_intro (pow_two_and_pred m))]

/-- C2: applying the transform twice to a vector of `N = 2^m` group elements
yields `N` times the original vector elementwise: `H(H(x)) = N·x`, where `·`
is scalar multiplication by the integer `N` (spec section 8;
the conversions are exact on group elements, so the engine is
`MatVecHadamardParGroup`). -/
theorem C2_double_transform_smul (xs : List G) (m w1 w2 : Nat) (hm : xs.length = 2 ^ m) :
    (MatVecHadamardParGroup xs w1).bind (fun ys => MatVecHadamardParGroup ys w2) =
      .ok (xs.map fun x => xs.length • x) := by
  rw [MatVecHadamardParGroup_valid xs m w1 hm]
  show MatVecHadamardParGroup _ w2 = _
  have hys : ((List.range (2 ^ m)).map
      (runStagesPar (· + ·) (fun x => -x) (2 ^ m) (max 1 w1) fun i => xs.getD i 0)).length =
      2 ^ m := by
    simp
  rw [MatVecHadamardParGroup_valid _ m w2 hys]
  congr 1
  refine List.ext_getElem ?_ ?_
  · simp [hm]
  · intro i h1 h2
    have hi : i < 2 ^ m := by simpa using h1
    rw [List.getElem_map, List.getElem_range, List.getElem_map]
    rw [← List.getD_eq_getElem xs 0 (show i < xs.length by omega), hm]
    -- unfold the two cascades and chain through the agreement of buffers
    rw [runStagesPar_eq_fold]
    have hagree := stagesFold_agree (· + ·) (fun x => -x) m m le_rfl
      (u := fun i => ((List.range (2 ^ m)).map
        (runStagesPar (· + ·) (fun x => -x) (2 ^ m) (max 1 w1) fun i => xs.getD i 0)).getD i 0)
      (v := (List.range m).foldl
        (fun v r => stagePointwise (· + ·) (fun x => -x) (2 ^ m) (2 ^ r) v)
        (fun i => xs.getD i 0))
      (fun j hj => by
        dsimp only
        rw [getD_map_range _ _ _ _ hj, runStagesPar_eq_fold])
      i hi
    rw [hagree]
    exact doubleCascade_smul m (fun i => xs.getD i 0) i hi

/-- Witness for C2: the spec's own example at `N = 4` over `ℤ`,
`x = [1, 2, 3, 4] ⇒ H(H(x)) = [4, 8, 12, 16]`. -/
theorem C2_double_transform_smul_witness :
    ([1, 2, 3, 4] : List ℤ).length = 2 ^ 2 ∧
    (MatVecHadamardParGroup ([1, 2, 3, 4] : List ℤ) 1).bind
        (fun ys => MatVecHadamardParGroup ys 3) =
      .ok [4, 8, 12, 16] := by
  refine ⟨rfl, ?_⟩
  rw [C2_double_transform_smul ([1, 2, 3, 4] : List ℤ) 2 1 3 rfl]
  norm_num

end ClaimC2
